import Mathlib

/-!
# Verification of the credentials-manager core (src/app.js)

Shallow embedding of the data-layer and algorithmic core of the
credentials manager: the `Utils` string helpers, the `DataStore`
account operations (add / update / delete / reorder / import-merge),
the `TOTP` generator with its bounded cache, and the `FileParser`
delimiter auto-detection.  JavaScript strings are embedded as Lean
`String`; the JS `trim` / `toLowerCase` / `toUpperCase` methods are
modelled character-wise (`strTrim`, `strLower`, `strUpper`) so that
their algebraic properties are provable.
-/

-- ============================================================================
-- String primitives (JS String.prototype.trim / toLowerCase / toUpperCase)
-- ============================================================================

/-- Character-level trim: drop whitespace from both ends of a char list,
modelling JS `String.prototype.trim`. -/
def trimChars (l : List Char) : List Char :=
  (l.dropWhile Char.isWhitespace).rdropWhile Char.isWhitespace

/-- JS `s.trim()`. -/
def strTrim (s : String) : String := ⟨trimChars s.data⟩

/-- JS `s.toLowerCase()` (ASCII case mapping). -/
def strLower (s : String) : String := ⟨s.data.map Char.toLower⟩

/-- JS `s.toUpperCase()` (ASCII case mapping). -/
def strUpper (s : String) : String := ⟨s.data.map Char.toUpper⟩

-- ============================================================================
-- Generic list helpers used to model in-place mutation of a found element
-- ============================================================================

/-- Replace the first element satisfying `p` by its `f`-image; `none` when no
element matches (models JS `findIndex` + in-place mutation of the found
object). -/
def updateFirst (p : α → Bool) (f : α → α) : List α → Option (List α)
  | [] => none
  | x :: xs => if p x then some (f x :: xs) else (updateFirst p f xs).map (x :: ·)

/-- Remove the first element satisfying `p`; `none` when no element matches
(models JS `findIndex` + `splice(index, 1)`). -/
def removeFirst (p : α → Bool) : List α → Option (List α)
  | [] => none
  | x :: xs => if p x then some xs else (removeFirst p xs).map (x :: ·)

-- ============================================================================
-- Utils (src/app.js, `const Utils`)
-- ============================================================================

namespace Utils

/-- `normalizeEmail(email) = email.toLowerCase().trim()`. -/
def normalizeEmail (email : String) : String := strTrim (strLower email)

/-- `normalizeTOTP(totp) = totp.toUpperCase().trim()`. -/
def normalizeTOTP (totp : String) : String := strTrim (strUpper totp)

end Utils

-- ============================================================================
-- Data model (src/app.js, `class DataStore`)
-- ============================================================================

/-- A stored account.  `id` abstracts the generated UUID as a number. -/
structure Account where
  id : Nat
  email : String
  password : String
  totp : String
  extras : List String
  tags : List Nat
  completed : Bool
  favorite : Bool
  addedAt : Nat
  lastUsed : Option Nat
  order : Nat
deriving Repr, DecidableEq

/-- A candidate record fed to `importAccounts` (the shape produced by
`FileParser.parse`). -/
structure Candidate where
  email : String
  password : String
  totp : String
  extras : List String
deriving Repr, DecidableEq

/-- The account list of `DataStore.data`, together with a counter that
abstracts fresh-UUID generation for `addAccount`. -/
structure Store where
  accounts : List Account
  nextId : Nat
deriving Repr, DecidableEq

/-- The `{added, updated, skipped}` counters returned by `importAccounts`. -/
structure Stats where
  added : Nat
  updated : Nat
  skipped : Nat
deriving Repr, DecidableEq

/-- Partial update object accepted by `updateAccount` (JS object spread:
a `none` field is an absent key, a `some` field overwrites). -/
structure Updates where
  email : Option String := none
  password : Option String := none
  totp : Option String := none
  extras : Option (List String) := none
  tags : Option (List Nat) := none
  completed : Option Bool := none
  favorite : Option Bool := none
  order : Option Nat := none
deriving Repr, DecidableEq

namespace DataStore

/-- `addAccount(accountData)`: builds the account record (normalizing email
and TOTP, `order = accounts.length`) and appends it.  `now` stands for
`Date.now()`; the fresh id comes from the store counter. -/
def addAccount (s : Store) (now : Nat) (d : Candidate) : Account × Store :=
  let account : Account := {
    id := s.nextId
    email := Utils.normalizeEmail d.email
    password := d.password
    totp := if d.totp = "" then "" else Utils.normalizeTOTP d.totp
    extras := d.extras
    tags := []
    completed := false
    favorite := false
    addedAt := now
    lastUsed := none
    order := s.accounts.length }
  (account, { accounts := s.accounts ++ [account], nextId := s.nextId + 1 })

/-- Spread-merge of an `Updates` object into an account
(`{ ...account, ...updates }`). -/
def applyUpdates (u : Updates) (a : Account) : Account :=
  { a with
    email := u.email.getD a.email
    password := u.password.getD a.password
    totp := u.totp.getD a.totp
    extras := u.extras.getD a.extras
    tags := u.tags.getD a.tags
    completed := u.completed.getD a.completed
    favorite := u.favorite.getD a.favorite
    order := u.order.getD a.order }

/-- `updateAccount(id, updates)`: `false` when no account has the id;
otherwise normalizes a truthy `updates.email` and a present `updates.totp`,
then spread-merges into the found account.  The boolean is the JS return
value; `autoSave` fires exactly on the `true` path. -/
def updateAccount (s : Store) (id : Nat) (u : Updates) : Bool × Store :=
  let u' : Updates := { u with
    email := u.email.map (fun e => if e = "" then e else Utils.normalizeEmail e)
    totp := u.totp.map (fun t => if t = "" then "" else Utils.normalizeTOTP t) }
  match updateFirst (fun acc => acc.id == id) (applyUpdates u') s.accounts with
  | none => (false, s)
  | some accounts => (true, { s with accounts := accounts })

/-- `deleteAccount(id)`: `false` when no account has the id; otherwise
splices the account out.  No other account is touched (in particular no
order value is changed).  `autoSave` fires exactly on the `true` path. -/
def deleteAccount (s : Store) (id : Nat) : Bool × Store :=
  match removeFirst (fun acc => acc.id == id) s.accounts with
  | none => (false, s)
  | some accounts => (true, { s with accounts := accounts })

/-- The per-account shift applied by `reorderAccounts` to every account
other than the moved one. -/
def shiftForMove (accountId oldOrder newOrder : Nat) (acc : Account) : Account :=
  if acc.id == accountId then acc
  else if oldOrder < newOrder then
    if oldOrder < acc.order && acc.order ≤ newOrder then
      { acc with order := acc.order - 1 } else acc
  else
    if newOrder ≤ acc.order && acc.order < oldOrder then
      { acc with order := acc.order + 1 } else acc

/-- `reorderAccounts(accountId, newOrder)`: `false` when no account has the
id; otherwise sets the found account's order to `newOrder` and shifts the
orders of the accounts in between.  `autoSave` fires exactly on the `true`
path. -/
def reorderAccounts (s : Store) (accountId : Nat) (newOrder : Nat) : Bool × Store :=
  match s.accounts.find? (fun acc => acc.id == accountId) with
  | none => (false, s)
  | some account =>
    let oldOrder := account.order
    let accounts1 :=
      (updateFirst (fun acc => acc.id == accountId)
        (fun acc => { acc with order := newOrder }) s.accounts).getD s.accounts
    let accounts2 := accounts1.map (shiftForMove accountId oldOrder newOrder)
    (true, { s with accounts := accounts2 })

/-- Duplicate search used by `importAccounts`: normalized-email plus exact
password match, TOTP ignored. -/
def matchPred (c : Candidate) (acc : Account) : Bool :=
  Utils.normalizeEmail acc.email == Utils.normalizeEmail c.email
    && acc.password == c.password

/-- The in-place extras merge loop: push each new extra not already present;
the boolean is the `updated` flag (true iff something was pushed). -/
def mergeExtras (existing : List String) (toAdd : List String) : List String × Bool :=
  toAdd.foldl
    (fun st extra => if extra ∈ st.1 then st else (st.1 ++ [extra], true))
    (existing, false)

/-- One iteration of the `importAccounts` forEach body: conflict resolution
for a single candidate against the current store. -/
def importOne (now : Nat) (st : Store × Stats) (newAcc : Candidate) : Store × Stats :=
  let s := st.1
  let stats := st.2
  match s.accounts.find? (matchPred newAcc) with
  | some existing =>
    let existingHasTOTP := strTrim existing.totp != ""
    let newHasTOTP := strTrim newAcc.totp != ""
    if existingHasTOTP && !newHasTOTP then
      -- TOTP loss protection
      (s, { stats with skipped := stats.skipped + 1 })
    else if !existingHasTOTP && newHasTOTP then
      -- adopt candidate TOTP, merge extras, count updated
      let accounts :=
        (updateFirst (matchPred newAcc)
          (fun acc => { acc with
            totp := newAcc.totp
            extras := (mergeExtras acc.extras newAcc.extras).1 }) s.accounts).getD s.accounts
      ({ s with accounts := accounts }, { stats with updated := stats.updated + 1 })
    else if existingHasTOTP && newHasTOTP then
      if existing.totp == newAcc.totp then
        -- same TOTP: merge extras, updated iff something was pushed
        let changed := (mergeExtras existing.extras newAcc.extras).2
        let accounts :=
          (updateFirst (matchPred newAcc)
            (fun acc => { acc with
              extras := (mergeExtras acc.extras newAcc.extras).1 }) s.accounts).getD s.accounts
        if changed then
          ({ s with accounts := accounts }, { stats with updated := stats.updated + 1 })
        else
          ({ s with accounts := accounts }, { stats with skipped := stats.skipped + 1 })
      else
        -- different TOTP: treated as a distinct account, insert
        let s' := (addAccount s now newAcc).2
        (s', { stats with added := stats.added + 1 })
    else
      -- both without TOTP: merge extras, updated iff something was pushed
      let changed := (mergeExtras existing.extras newAcc.extras).2
      let accounts :=
        (updateFirst (matchPred newAcc)
          (fun acc => { acc with
            extras := (mergeExtras acc.extras newAcc.extras).1 }) s.accounts).getD s.accounts
      if changed then
        ({ s with accounts := accounts }, { stats with updated := stats.updated + 1 })
      else
        ({ s with accounts := accounts }, { stats with skipped := stats.skipped + 1 })
  | none =>
    let s' := (addAccount s now newAcc).2
    (s', { stats with added := stats.added + 1 })

/-- `importAccounts(accounts)`: fold the conflict resolution over the batch,
starting from zeroed counters. -/
def importAccounts (now : Nat) (s : Store) (batch : List Candidate) : Store × Stats :=
  batch.foldl (importOne now) (s, { added := 0, updated := 0, skipped := 0 })

end DataStore

-- ============================================================================
-- TOTP generation (src/app.js, `const TOTP`)
-- ============================================================================

namespace TOTP

/-- The cache `Map`: insertion-ordered association list
`secret ↦ (code, timeWindow)`. -/
abbrev Cache := List (String × String × Nat)

/-- `MAX_CACHE_SIZE`. -/
def MAX_CACHE_SIZE : Nat := 100

/-- `Map.get`. -/
def cacheGet (cache : Cache) (secret : String) : Option (String × Nat) :=
  (cache.find? (fun e => e.1 == secret)).map (fun e => e.2)

/-- `Map.set`: overwrite in place if the key is present, else append. -/
def cacheSet (cache : Cache) (secret : String) (v : String × Nat) : Cache :=
  match updateFirst (fun e => e.1 == secret) (fun _ => (secret, v)) cache with
  | some c => c
  | none => cache ++ [(secret, v)]

/-- The Base32 alphabet. -/
def alphabet : String := "ABCDEFGHIJKLMNOPQRSTUVWXYZ234567"

/-- The `base32Decode` accumulation loop: per character, uppercase it, stop
at a pad `=`, reject characters outside the alphabet, shift 5 bits in and
emit a byte whenever 8 bits are available.  The 32-bit wrap of the JS `<<`
is mirrored; it never affects the low bits a byte is taken from. -/
def base32DecodeLoop : List Char → Nat → Nat → List Nat → Except String (List Nat)
  | [], _, _, output => .ok output
  | c :: rest, bits, value, output =>
    let ch := c.toUpper
    if ch = '=' then .ok output
    else
      match alphabet.data.findIdx? (fun a => a == ch) with
      | none => .error "Invalid base32 character"
      | some charIndex =>
        let value := (value * 32 + charIndex) % 4294967296
        let bits := bits + 5
        if 8 ≤ bits then
          base32DecodeLoop rest (bits - 8) value (output ++ [value / 2 ^ (bits - 8) % 256])
        else
          base32DecodeLoop rest bits value output

/-- `base32Decode(encoded)`: bytes on success, the thrown error otherwise. -/
def base32Decode (encoded : String) : Except String (List Nat) :=
  base32DecodeLoop encoded.data 0 0 []

/-- The 8-byte counter message: `setUint32(4, currentWindow, false)` on a
zeroed 8-byte buffer, i.e. the window (mod 2^32) big-endian in bytes 4–7. -/
def counterBytes (currentWindow : Nat) : List Nat :=
  let w := currentWindow % 4294967296
  [0, 0, 0, 0, w / 16777216 % 256, w / 65536 % 256, w / 256 % 256, w % 256]

/-- The dynamic-truncation arithmetic of `generate`:
`offset = hmac[hmac.length - 1] & 0xf` and the four bytes at `offset`
assembled with the top byte masked to 7 bits. -/
def hotpValue (hmac : List Nat) : Nat :=
  let offset := hmac.getD (hmac.length - 1) 0 % 16
  hmac.getD offset 0 % 128 * 16777216
    + hmac.getD (offset + 1) 0 % 256 * 65536
    + hmac.getD (offset + 2) 0 % 256 * 256
    + hmac.getD (offset + 3) 0 % 256

/-- JS `padStart(n, c)`. -/
def padStart (s : String) (n : Nat) (c : Char) : String :=
  ⟨List.replicate (n - s.data.length) c ++ s.data⟩

/-- The cache-miss path of `generate`: decode, HMAC, truncate, pad, insert
into the cache and clean aggressively when the size bound is exceeded; a
decode error is caught and surfaces as the string `Error`.  `hmacSha1`
stands for the Web-Crypto HMAC-SHA1 primitive and is passed as a
function; `currentWindow` stands for `getCurrentTimeWindow()`. -/
def generateFresh (hmacSha1 : List Nat → List Nat → List Nat)
    (currentWindow : Nat) (cache : Cache) (secret : String) : String × Cache :=
  match base32Decode secret with
  | .error _ => ("Error", cache)
  | .ok key =>
    let hmac := hmacSha1 key (counterBytes currentWindow)
    let code := hotpValue hmac
    let totpCode := padStart (Nat.repr (code % 1000000)) 6 '0'
    let cache1 := cacheSet cache secret (totpCode, currentWindow)
    let cache2 :=
      if MAX_CACHE_SIZE < cache1.length then
        -- aggressiveCleanCache: keep only current-window entries,
        -- and clear completely if still over the bound
        let cleaned := cache1.filter (fun e => e.2.2 == currentWindow)
        if MAX_CACHE_SIZE < cleaned.length then [] else cleaned
      else cache1
    (totpCode, cache2)

/-- `generate(secret)`: return the cached code when its window is current,
else recompute via `generateFresh`. -/
def generate (hmacSha1 : List Nat → List Nat → List Nat)
    (currentWindow : Nat) (cache : Cache) (secret : String) : String × Cache :=
  match cacheGet cache secret with
  | some (code, win) =>
    if win == currentWindow then (code, cache)
    else generateFresh hmacSha1 currentWindow cache secret
  | none => generateFresh hmacSha1 currentWindow cache secret

end TOTP

-- ============================================================================
-- FileParser (src/app.js, `const FileParser`)
-- ============================================================================

namespace FileParser

/-- The preview lines examined by `detectDelimiter`: split on newlines, keep
non-blank lines not starting with `#` (the comment test runs on the
untrimmed line), take the first 3. -/
def detectLines (content : String) : List String :=
  ((content.splitOn "\n").filter
    (fun l => strTrim l != "" && !l.startsWith "#")).take 3

/-- The fixed candidate list, in tie-break order. -/
def delimiters : List String := ["|", ":", ";", ";;;", ";;", "\t", ","]

/-- Score of one candidate: the number of preview lines that split into at
least 3 parts with it. -/
def delimScore (lines : List String) (delim : String) : Nat :=
  lines.foldl (fun score line => if 3 ≤ (line.splitOn delim).length then score + 1 else score) 0

/-- First maximum of a scored list: the head of the stable descending sort
by score (`sort((a, b) => b[1] - a[1])[0]`). -/
def bestEntry : String × Nat → List (String × Nat) → String × Nat
  | b, [] => b
  | b, x :: xs => bestEntry (if b.2 < x.2 then x else b) xs

/-- `detectDelimiter(content)`: `none` when there is no preview line or the
best score is 0, else the first best-scoring candidate. -/
def detectDelimiter (content : String) : Option String :=
  let lines := detectLines content
  if lines.length = 0 then none
  else
    let scores := delimiters.map (fun d => (d, delimScore lines d))
    match scores with
    | [] => none
    | e :: rest =>
      let best := bestEntry e rest
      if 0 < best.2 then some best.1 else none

end FileParser

-- ============================================================================
-- Verification-side views (not part of the source; used to state lemmas)
-- ============================================================================

/-- The duplicate-detection key of a stored account: normalized email plus
exact password (the pair `importAccounts` compares). -/
def accountKey (a : Account) : String × String :=
  (Utils.normalizeEmail a.email, a.password)

/-- The duplicate-detection key of a candidate. -/
def candKey (c : Candidate) : String × String :=
  (Utils.normalizeEmail c.email, c.password)

/-- All duplicate-detection keys of a store, in account order. -/
def storeKeys (s : Store) : List (String × String) :=
  s.accounts.map accountKey

/-- The order-value transformation a reorder performs, as a function of the
old order value alone (adequate when order values are pairwise distinct). -/
def moveOrder (oldOrder newOrder : Nat) (o : Nat) : Nat :=
  if o = oldOrder then newOrder
  else if oldOrder < newOrder then
    (if oldOrder < o ∧ o ≤ newOrder then o - 1 else o)
  else
    (if newOrder ≤ o ∧ o < oldOrder then o + 1 else o)

/-- Taken from the spec's words (refinement side of the OTP claim): an
8-byte big-endian counter holding the window index. -/
def specCounter (window : Nat) : List Nat :=
  [window / 256 ^ 7 % 256, window / 256 ^ 6 % 256, window / 256 ^ 5 % 256,
   window / 256 ^ 4 % 256, window / 256 ^ 3 % 256, window / 256 ^ 2 % 256,
   window / 256 % 256, window % 256]

/-- Taken from the spec's words: RFC 4226 dynamic truncation of a 20-byte
digest — `offset = digest[19] & 0x0F`, the 4 bytes at `offset` as a 31-bit
integer (top byte masked with `0x7F`). -/
def specTruncate (digest : List Nat) : Nat :=
  let offset := digest.getD 19 0 % 16
  digest.getD offset 0 % 128 * 16777216
    + digest.getD (offset + 1) 0 % 256 * 65536
    + digest.getD (offset + 2) 0 % 256 * 256
    + digest.getD (offset + 3) 0 % 256

/-- Taken from the spec's words: the 6-digit zero-padded decimal string,
`value mod 1_000_000` left-padded with zeros to width 6. -/
def specTotpString (hmacSha1 : List Nat → List Nat → List Nat)
    (key : List Nat) (window : Nat) : String :=
  TOTP.padStart (Nat.repr (specTruncate (hmacSha1 key (specCounter window)) % 1000000)) 6 '0'

/-- The code the implementation computes for a secret in a window
(`none` when the secret does not decode); verification-side view of the
cache-miss arithmetic of `generate`. -/
def computeCode (hmacSha1 : List Nat → List Nat → List Nat)
    (currentWindow : Nat) (secret : String) : Option String :=
  match TOTP.base32Decode secret with
  | .error _ => none
  | .ok key =>
    some (TOTP.padStart
      (Nat.repr (TOTP.hotpValue (hmacSha1 key (TOTP.counterBytes currentWindow)) % 1000000))
      6 '0')

/-- Cache well-formedness: every entry stamped with the current window holds
the code the implementation would compute for its secret. -/
def cacheWF (hmacSha1 : List Nat → List Nat → List Nat)
    (currentWindow : Nat) (cache : TOTP.Cache) : Prop :=
  ∀ e ∈ cache, e.2.2 = currentWindow →
    computeCode hmacSha1 currentWindow e.1 = some e.2.1

/-- A secret containing a character outside the Base32 alphabet
(case-insensitively) before any `=` pad. -/
def hasInvalidBase32Char (s : String) : Prop :=
  ∃ c ∈ s.data.takeWhile (fun c => c.toUpper ≠ '='), c.toUpper ∉ TOTP.alphabet.data

-- ============================================================================
-- Concrete fixtures used by counterexamples and witnesses
-- ============================================================================

/-- A baseline stored account. -/
def exAccount : Account :=
  { id := 0, email := "a@x.com", password := "p", totp := "", extras := [],
    tags := [], completed := false, favorite := false, addedAt := 0,
    lastUsed := none, order := 0 }

/-- Three accounts with order values 0, 1, 2. -/
def exStore3 : Store :=
  { accounts := [exAccount,
      { exAccount with id := 1, email := "b@x.com", order := 1 },
      { exAccount with id := 2, email := "c@x.com", order := 2 }],
    nextId := 3 }

/-- An account holding a (valid, uppercase) TOTP secret. -/
def exAccountT : Account :=
  { exAccount with totp := "ABCDEFGHIJKLMNOPQRSTUVWXYZ234567" }

/-- A one-account store whose account holds a TOTP secret. -/
def exStoreT : Store := { accounts := [exAccountT], nextId := 1 }

/-- A candidate with the same email and password as `exAccountT` and the
same TOTP secret written in lower case. -/
def exCandLower : Candidate :=
  { email := "a@x.com", password := "p",
    totp := "abcdefghijklmnopqrstuvwxyz234567", extras := [] }

/-- A candidate with the same email and password as `exAccountT` and no
TOTP secret. -/
def exCandEmpty : Candidate :=
  { email := "a@x.com", password := "p", totp := "", extras := [] }

/-- A candidate identical to `exAccountT` in email, password and TOTP
(exact string), carrying one new extra. -/
def exCandUpper : Candidate :=
  { email := "a@x.com", password := "p",
    totp := "ABCDEFGHIJKLMNOPQRSTUVWXYZ234567", extras := ["user1"] }

/-- A fresh candidate matching nothing in the fixtures. -/
def exCandNew : Candidate :=
  { email := "d@x.com", password := "q", totp := "", extras := [] }

/-- The empty store. -/
def exStore0 : Store := { accounts := [], nextId := 0 }

/-- A concrete stand-in for the HMAC-SHA1 primitive, returning a fixed
20-byte digest (used only to exercise the generator in witnesses). -/
def exHmac : List Nat → List Nat → List Nat := fun _ _ => List.range 20

-- ============================================================================
-- Helper lemmas
-- ============================================================================

theorem updateFirst_eq_none {p : α → Bool} {f : α → α} {l : List α}
    (h : ∀ x ∈ l, p x = false) : updateFirst p f l = none := by
  induction l with
  | nil => rfl
  | cons x xs ih =>
    simp only [updateFirst, h x (List.mem_cons_self x xs)]
    simp [ih (fun y hy => h y (List.mem_cons_of_mem x hy))]

theorem removeFirst_eq_none {p : α → Bool} {l : List α}
    (h : ∀ x ∈ l, p x = false) : removeFirst p l = none := by
  induction l with
  | nil => rfl
  | cons x xs ih =>
    simp only [removeFirst, h x (List.mem_cons_self x xs)]
    simp [ih (fun y hy => h y (List.mem_cons_of_mem x hy))]

theorem char_toNat_ofNat {n : Nat} (h : n.isValidChar) : (Char.ofNat n).toNat = n := by
  simp [Char.ofNat, h, Char.ofNatAux, Char.toNat, UInt32.toNat, BitVec.toNat_ofNatLt]

theorem char_toLower_idem (c : Char) : c.toLower.toLower = c.toLower := by
  by_cases h : c.toNat ≥ 65 ∧ c.toNat ≤ 90
  · have h1 : Char.toLower c = Char.ofNat (c.toNat + 32) := by
      unfold Char.toLower
      rw [if_pos h]
    have hv : (Char.ofNat (c.toNat + 32)).toNat = c.toNat + 32 :=
      char_toNat_ofNat (Or.inl (by omega))
    rw [h1]
    unfold Char.toLower
    rw [if_neg (by rw [hv]; omega)]
  · have h1 : Char.toLower c = c := by
      unfold Char.toLower
      rw [if_neg h]
    rw [h1, h1]

theorem char_isWhitespace_of_toNat {c : Char} (h32 : c.toNat ≠ 32) (h9 : c.toNat ≠ 9)
    (h13 : c.toNat ≠ 13) (h10 : c.toNat ≠ 10) : c.isWhitespace = false := by
  have hs : c ≠ ' ' ∧ c ≠ '\t' ∧ c ≠ '\x0d' ∧ c ≠ '\n' := by
    refine ⟨?_, ?_, ?_, ?_⟩ <;> intro he <;> subst he <;>
      revert h32 h9 h13 h10 <;> decide
  simp [Char.isWhitespace, hs.1, hs.2.1, hs.2.2.1, hs.2.2.2]

theorem char_isWhitespace_toLower (c : Char) : c.toLower.isWhitespace = c.isWhitespace := by
  by_cases h : c.toNat ≥ 65 ∧ c.toNat ≤ 90
  · have h1 : Char.toLower c = Char.ofNat (c.toNat + 32) := by
      unfold Char.toLower
      rw [if_pos h]
    have hv : (Char.ofNat (c.toNat + 32)).toNat = c.toNat + 32 :=
      char_toNat_ofNat (Or.inl (by omega))
    rw [h1, char_isWhitespace_of_toNat (by omega) (by omega) (by omega) (by omega),
      char_isWhitespace_of_toNat (c := c) (by omega) (by omega) (by omega) (by omega)]
  · have h1 : Char.toLower c = c := by
      unfold Char.toLower
      rw [if_neg h]
    rw [h1]

theorem rdropWhile_map (p : β → Bool) (f : α → β) (l : List α) :
    (l.map f).rdropWhile p = (l.rdropWhile (fun x => p (f x))).map f := by
  simp only [List.rdropWhile, ← List.map_reverse, List.dropWhile_map]
  rfl

theorem dropWhile_head_false {p : α → Bool} {l : List α} {x : α} {xs : List α}
    (h : l.dropWhile p = x :: xs) : p x = false := by
  have := List.head?_dropWhile_not p l
  rw [h] at this
  simpa using this

theorem dropWhile_trimChars (l : List Char) :
    (trimChars l).dropWhile Char.isWhitespace = trimChars l := by
  unfold trimChars
  set m₀ := l.dropWhile Char.isWhitespace with hm₀
  obtain ⟨t, ht⟩ := List.rdropWhile_prefix Char.isWhitespace m₀
  cases hm : m₀.rdropWhile Char.isWhitespace with
  | nil => simp
  | cons x xs =>
    rw [hm] at ht
    have hx : Char.isWhitespace x = false := by
      have hcons : m₀ = x :: (xs ++ t) := by rw [← ht]; simp
      exact dropWhile_head_false (hm₀ ▸ hcons)
    simp [List.dropWhile_cons, hx]

theorem trimChars_idem (l : List Char) : trimChars (trimChars l) = trimChars l := by
  conv_lhs => rw [trimChars, dropWhile_trimChars]
  rw [trimChars, List.rdropWhile_idempotent]

theorem trimChars_map_toLower (l : List Char) :
    trimChars (l.map Char.toLower) = (trimChars l).map Char.toLower := by
  have hp : (fun x => Char.isWhitespace (Char.toLower x)) = Char.isWhitespace :=
    funext char_isWhitespace_toLower
  unfold trimChars
  rw [List.dropWhile_map]
  have : (Char.isWhitespace ∘ Char.toLower) = Char.isWhitespace := funext char_isWhitespace_toLower
  rw [this, rdropWhile_map, hp]

theorem normalizeEmail_idem (s : String) :
    Utils.normalizeEmail (Utils.normalizeEmail s) = Utils.normalizeEmail s := by
  show strTrim (strLower (strTrim (strLower s))) = strTrim (strLower s)
  simp only [strTrim, strLower]
  congr 1
  have hmap : (trimChars (s.data.map Char.toLower)).map Char.toLower
      = trimChars (s.data.map Char.toLower) := by
    rw [← trimChars_map_toLower, List.map_map]
    have : (Char.toLower ∘ Char.toLower) = Char.toLower := funext char_toLower_idem
    rw [this]
  rw [hmap, trimChars_idem]

theorem updateFirst_decomp {p : α → Bool} (f : α → α) {l : List α} {a : α}
    (h : l.find? p = some a) :
    ∃ l₁ l₂, l = l₁ ++ a :: l₂ ∧ (∀ x ∈ l₁, p x = false) ∧ p a = true ∧
      updateFirst p f l = some (l₁ ++ f a :: l₂) := by
  induction l with
  | nil => simp [List.find?] at h
  | cons x xs ih =>
    by_cases hx : p x
    · rw [List.find?_cons_of_pos _ hx, Option.some_inj] at h
      subst h
      exact ⟨[], xs, rfl, by simp, hx, by simp [updateFirst, hx]⟩
    · rw [List.find?_cons_of_neg _ hx] at h
      obtain ⟨l₁, l₂, hl, hfail, hpa, hupd⟩ := ih h
      refine ⟨x :: l₁, l₂, by simp [hl], ?_, hpa, ?_⟩
      · intro y hy
        rcases List.mem_cons.mp hy with rfl | hy
        · simpa using hx
        · exact hfail y hy
      · simp [updateFirst, hx, hupd]

theorem find?_prefix_fail {p : α → Bool} {l₁ : List α} (l₂ : List α) {a : α}
    (h : ∀ x ∈ l₁, p x = false) (ha : p a = true) :
    List.find? p (l₁ ++ a :: l₂) = some a := by
  induction l₁ with
  | nil => simp [List.find?_cons, ha]
  | cons x xs ih =>
    have hx := h x (List.mem_cons_self x xs)
    simp only [List.cons_append, List.find?_cons, hx]
    exact ih (fun y hy => h y (List.mem_cons_of_mem x hy))

/-- The `mergeExtras` fold step. -/
theorem mergeExtras_go_mem (new : List String) (acc : List String) (b : Bool) (e : String) :
    e ∈ (new.foldl
      (fun st extra => if extra ∈ st.1 then st else (st.1 ++ [extra], true))
      (acc, b)).1 ↔ e ∈ acc ∨ e ∈ new := by
  induction new generalizing acc b with
  | nil => simp
  | cons x xs ih =>
    by_cases hx : x ∈ acc
    · simp only [List.foldl_cons, if_pos hx, ih]
      constructor
      · rintro (h | h)
        · exact Or.inl h
        · exact Or.inr (List.mem_cons_of_mem x h)
      · rintro (h | h)
        · exact Or.inl h
        · rcases List.mem_cons.mp h with rfl | h
          · exact Or.inl hx
          · exact Or.inr h
    · simp only [List.foldl_cons, if_neg hx, ih, List.mem_append,
        List.mem_singleton, List.mem_cons]
      tauto

theorem mergeExtras_go_flag_true (new : List String) (acc : List String) :
    (new.foldl
      (fun st extra => if extra ∈ st.1 then st else (st.1 ++ [extra], true))
      (acc, true)).2 = true := by
  induction new generalizing acc with
  | nil => rfl
  | cons x xs ih =>
    by_cases hx : x ∈ acc
    · simpa [hx] using ih acc
    · simpa [hx] using ih (acc ++ [x])

theorem mergeExtras_go_len (new : List String) (acc : List String) (b : Bool) :
    acc.length ≤ (new.foldl
      (fun st extra => if extra ∈ st.1 then st else (st.1 ++ [extra], true))
      (acc, b)).1.length := by
  induction new generalizing acc b with
  | nil => simp
  | cons x xs ih =>
    by_cases hx : x ∈ acc
    · simpa [hx] using ih acc b
    · have := ih (acc ++ [x]) true
      simp only [List.foldl_cons, if_neg hx]
      simp only [List.length_append, List.length_singleton] at this
      omega

theorem mergeExtras_go_flag_false (new : List String) (acc : List String)
    (h : (new.foldl
      (fun st extra => if extra ∈ st.1 then st else (st.1 ++ [extra], true))
      (acc, false)).2 = false) :
    (new.foldl
      (fun st extra => if extra ∈ st.1 then st else (st.1 ++ [extra], true))
      (acc, false)).1 = acc := by
  induction new generalizing acc with
  | nil => rfl
  | cons x xs ih =>
    by_cases hx : x ∈ acc
    · simp only [List.foldl_cons, if_pos hx] at h ⊢
      exact ih acc h
    · exfalso
      simp only [List.foldl_cons, if_neg hx] at h
      rw [mergeExtras_go_flag_true] at h
      simp at h

theorem mergeExtras_go_flag_strict (new : List String) (acc : List String)
    (h : (new.foldl
      (fun st extra => if extra ∈ st.1 then st else (st.1 ++ [extra], true))
      (acc, false)).2 = true) :
    acc.length < (new.foldl
      (fun st extra => if extra ∈ st.1 then st else (st.1 ++ [extra], true))
      (acc, false)).1.length := by
  induction new generalizing acc with
  | nil => simp at h
  | cons x xs ih =>
    by_cases hx : x ∈ acc
    · simp only [List.foldl_cons, if_pos hx] at h ⊢
      exact ih acc h
    · simp only [List.foldl_cons, if_neg hx]
      have := mergeExtras_go_len xs (acc ++ [x]) true
      simp only [List.length_append, List.length_singleton] at this
      omega

/-- Membership in the merged extras list: union of the two sides. -/
theorem mergeExtras_mem (old new : List String) (e : String) :
    e ∈ (DataStore.mergeExtras old new).1 ↔ e ∈ old ∨ e ∈ new :=
  mergeExtras_go_mem new old false e

/-- The `updated` flag of the extras merge is set iff the extras actually
changed. -/
theorem mergeExtras_flag_iff (old new : List String) :
    (DataStore.mergeExtras old new).2 = true ↔ (DataStore.mergeExtras old new).1 ≠ old := by
  simp only [DataStore.mergeExtras]
  constructor
  · intro h heq
    have hlt := mergeExtras_go_flag_strict new old h
    rw [heq] at hlt
    exact lt_irrefl _ hlt
  · intro h
    cases hflag : (new.foldl
      (fun st extra => if extra ∈ st.1 then st else (st.1 ++ [extra], true))
      (old, false)).2 with
    | true => rfl
    | false => exact absurd (mergeExtras_go_flag_false new old hflag) h

theorem updateFirst_map_eq {p : α → Bool} {f : α → α} {l l' : List α} (g : α → β)
    (h : updateFirst p f l = some l') (hg : ∀ x, g (f x) = g x) :
    l'.map g = l.map g := by
  induction l generalizing l' with
  | nil => simp [updateFirst] at h
  | cons x xs ih =>
    by_cases hx : p x
    · simp only [updateFirst, if_pos hx, Option.some_inj] at h
      subst h
      simp [hg x]
    · simp only [updateFirst, if_neg hx] at h
      cases hxs : updateFirst p f xs with
      | none => rw [hxs] at h; simp at h
      | some ys =>
        rw [hxs] at h
        simp at h
        subst h
        simp [ih hxs]

theorem updateFirst_length {p : α → Bool} {f : α → α} {l l' : List α}
    (h : updateFirst p f l = some l') : l'.length = l.length := by
  have := updateFirst_map_eq (fun _ => Unit.unit) h (fun _ => rfl)
  have hlen := congrArg List.length this
  simpa using hlen

/-- `matchPred` succeeds exactly on key agreement. -/
theorem matchPred_iff_key (c : Candidate) (a : Account) :
    DataStore.matchPred c a = true ↔ accountKey a = candKey c := by
  simp [DataStore.matchPred, accountKey, candKey, Prod.ext_iff]

/-- The duplicate search succeeds exactly when the candidate's key occurs
among the store keys. -/
theorem find?_matchPred_isSome (c : Candidate) (s : Store) :
    (s.accounts.find? (DataStore.matchPred c)).isSome ↔ candKey c ∈ storeKeys s := by
  rw [List.find?_isSome]
  constructor
  · rintro ⟨a, ha, hp⟩
    exact List.mem_map.mpr ⟨a, ha, (matchPred_iff_key c a).mp hp⟩
  · intro h
    obtain ⟨a, ha, hk⟩ := List.mem_map.mp h
    exact ⟨a, ha, (matchPred_iff_key c a).mpr hk⟩

/-- The account appended by `addAccount` carries the candidate's key
(normalization is idempotent). -/
theorem addAccount_storeKeys (s : Store) (now : Nat) (c : Candidate) :
    storeKeys (DataStore.addAccount s now c).2 = storeKeys s ++ [candKey c] := by
  simp [DataStore.addAccount, storeKeys, accountKey, candKey, normalizeEmail_idem]

/-- One import step leaves the store keys unchanged or appends the
candidate's key. -/
theorem importOne_storeKeys (now : Nat) (st : Store × Stats) (c : Candidate) :
    storeKeys (DataStore.importOne now st c).1 = storeKeys st.1 ∨
    storeKeys (DataStore.importOne now st c).1 = storeKeys st.1 ++ [candKey c] := by
  obtain ⟨s, stats⟩ := st
  cases hfind : s.accounts.find? (DataStore.matchPred c) with
  | none =>
    right
    simp [DataStore.importOne, hfind, addAccount_storeKeys]
  | some a =>
    obtain ⟨l₁, l₂, hl, hfail, hpa, hupd⟩ := updateFirst_decomp
      (fun acc => { acc with
        totp := c.totp
        extras := (DataStore.mergeExtras acc.extras c.extras).1 }) hfind
    obtain ⟨l₁x, l₂x, hlx, hfailx, hpax, hupdx⟩ := updateFirst_decomp
      (fun acc => { acc with
        extras := (DataStore.mergeExtras acc.extras c.extras).1 }) hfind
    have hmap1 := updateFirst_map_eq accountKey hupd (fun x => rfl)
    have hmap2 := updateFirst_map_eq accountKey hupdx (fun x => rfl)
    cases hex : (strTrim a.totp != "") <;> cases hnew : (strTrim c.totp != "")
    · -- both TOTP absent: extras merge only
      left
      cases hch : (DataStore.mergeExtras a.extras c.extras).2 <;>
        · simp only [DataStore.importOne, hfind, hex, hnew, hch, hupdx, Option.getD_some,
            Bool.not_false, Bool.not_true, Bool.and_false, Bool.and_true, Bool.false_and,
            Bool.true_and, if_true, if_false, Bool.false_eq_true, ite_true, ite_false]
          simpa [storeKeys] using hmap2
    · -- adopt candidate TOTP
      left
      simp only [DataStore.importOne, hfind, hex, hnew, hupd, Option.getD_some,
        Bool.not_false, Bool.not_true, Bool.and_false, Bool.and_true, Bool.false_and,
        Bool.true_and, if_true, if_false, Bool.false_eq_true, ite_true, ite_false]
      simpa [storeKeys] using hmap1
    · -- TOTP loss protection: skip
      left
      simp [DataStore.importOne, hfind, hex, hnew]
    · -- both present
      cases heqt : (a.totp == c.totp)
      · -- different: insert as a distinct account
        right
        simp only [DataStore.importOne, hfind, hex, hnew, heqt, Option.getD_some,
          Bool.not_false, Bool.not_true, Bool.and_false, Bool.and_true, Bool.false_and,
          Bool.true_and, if_true, if_false, Bool.false_eq_true, ite_true, ite_false]
        simp [addAccount_storeKeys]
      · -- equal: extras merge only
        left
        cases hch : (DataStore.mergeExtras a.extras c.extras).2 <;>
          · simp only [DataStore.importOne, hfind, hex, hnew, heqt, hch, hupdx,
              Option.getD_some, Bool.not_false, Bool.not_true, Bool.and_false, Bool.and_true,
              Bool.false_and, Bool.true_and, if_true, if_false, Bool.false_eq_true,
              ite_true, ite_false]
            simpa [storeKeys] using hmap2

theorem foldl_importOne_keys_extend (now : Nat) (batch : List Candidate)
    (init : Store × Stats) :
    ∃ ks, storeKeys (batch.foldl (DataStore.importOne now) init).1 = storeKeys init.1 ++ ks := by
  induction batch generalizing init with
  | nil => exact ⟨[], by simp⟩
  | cons c cs ih =>
    obtain ⟨ks, hks⟩ := ih (DataStore.importOne now init c)
    rcases importOne_storeKeys now init c with h | h
    · exact ⟨ks, by rw [List.foldl_cons, hks, h]⟩
    · exact ⟨[candKey c] ++ ks, by rw [List.foldl_cons, hks, h, List.append_assoc]⟩

theorem importOne_key_self (now : Nat) (st : Store × Stats) (c : Candidate) :
    candKey c ∈ storeKeys (DataStore.importOne now st c).1 := by
  obtain ⟨s, stats⟩ := st
  cases hfind : s.accounts.find? (DataStore.matchPred c) with
  | none => simp [DataStore.importOne, hfind, addAccount_storeKeys]
  | some a =>
    have hmem : candKey c ∈ storeKeys s := by
      apply (find?_matchPred_isSome c s).mp
      rw [hfind]
      rfl
    rcases importOne_storeKeys now (s, stats) c with h | h <;> rw [h]
    · exact hmem
    · exact List.mem_append_left _ hmem

/-- After an import, every candidate of the batch has a matching key in the
resulting store. -/
theorem importAccounts_key_mem (now : Nat) (batch : List Candidate)
    (init : Store × Stats) :
    ∀ c ∈ batch, candKey c ∈ storeKeys (batch.foldl (DataStore.importOne now) init).1 := by
  induction batch generalizing init with
  | nil => simp
  | cons x xs ih =>
    intro c hc
    rcases List.mem_cons.mp hc with rfl | hc
    · rw [List.foldl_cons]
      obtain ⟨ks, hks⟩ := foldl_importOne_keys_extend now xs (DataStore.importOne now init c)
      rw [hks]
      exact List.mem_append_left _ (importOne_key_self now init c)
    · exact ih (DataStore.importOne now init x) c hc

/-- Importing a candidate without a TOTP that matches some stored key never
adds an account: the added counter, the keys and the account count are all
unchanged. -/
theorem importOne_no_totp (now : Nat) (s : Store) (stats : Stats) (c : Candidate)
    (hkey : candKey c ∈ storeKeys s) (hto : strTrim c.totp = "") :
    (DataStore.importOne now (s, stats) c).2.added = stats.added ∧
    storeKeys (DataStore.importOne now (s, stats) c).1 = storeKeys s ∧
    (DataStore.importOne now (s, stats) c).1.accounts.length = s.accounts.length := by
  have hsome : (s.accounts.find? (DataStore.matchPred c)).isSome :=
    (find?_matchPred_isSome c s).mpr hkey
  cases hfind : s.accounts.find? (DataStore.matchPred c) with
  | none => rw [hfind] at hsome; simp at hsome
  | some a =>
    have hnew : (strTrim c.totp != "") = false := by simp [hto]
    obtain ⟨l₁x, l₂x, hlx, hfailx, hpax, hupdx⟩ := updateFirst_decomp
      (fun acc => { acc with
        extras := (DataStore.mergeExtras acc.extras c.extras).1 }) hfind
    have hmap2 := updateFirst_map_eq accountKey hupdx (fun x => rfl)
    have hlen := updateFirst_length hupdx
    cases hex : (strTrim a.totp != "")
    · cases hch : (DataStore.mergeExtras a.extras c.extras).2 <;>
        · simp only [DataStore.importOne, hfind, hex, hnew, hch, hupdx, Option.getD_some,
            Bool.not_false, Bool.not_true, Bool.and_false, Bool.and_true, Bool.false_and,
            Bool.true_and, if_true, if_false, Bool.false_eq_true, ite_true, ite_false]
          refine ⟨by trivial, ?_, ?_⟩
          · simpa [storeKeys] using hmap2
          · simpa using hlen
    · simp [DataStore.importOne, hfind, hex, hnew]

theorem import_no_totp_fold (now : Nat) (batch : List Candidate) (init : Store × Stats)
    (hall : ∀ c ∈ batch, strTrim c.totp = "" ∧ candKey c ∈ storeKeys init.1) :
    (batch.foldl (DataStore.importOne now) init).2.added = init.2.added ∧
    storeKeys (batch.foldl (DataStore.importOne now) init).1 = storeKeys init.1 ∧
    (batch.foldl (DataStore.importOne now) init).1.accounts.length
      = init.1.accounts.length := by
  induction batch generalizing init with
  | nil => exact ⟨rfl, rfl, rfl⟩
  | cons x xs ih =>
    obtain ⟨hx1, hx2⟩ := hall x (List.mem_cons_self x xs)
    obtain ⟨h1, h2, h3⟩ := importOne_no_totp now init.1 init.2 x hx2 hx1
    have hall2 : ∀ c ∈ xs, strTrim c.totp = "" ∧
        candKey c ∈ storeKeys (DataStore.importOne now init x).1 := by
      intro c hc
      refine ⟨(hall c (List.mem_cons_of_mem x hc)).1, ?_⟩
      rw [h2]
      exact (hall c (List.mem_cons_of_mem x hc)).2
    obtain ⟨g1, g2, g3⟩ := ih (DataStore.importOne now init x) hall2
    rw [List.foldl_cons]
    exact ⟨g1.trans h1, g2.trans h2, g3.trans h3⟩

theorem perm_range_of_nodup_of_lt {L : List Nat} {N : Nat} (hnd : L.Nodup)
    (hlt : ∀ v ∈ L, v < N) (hlen : L.length = N) : L.Perm (List.range N) := by
  apply List.perm_of_nodup_nodup_toFinset_eq hnd (List.nodup_range N)
  have hsub : L.toFinset ⊆ (List.range N).toFinset := by
    intro x hx
    simp only [List.mem_toFinset, List.mem_range] at hx ⊢
    exact hlt x hx
  apply Finset.eq_of_subset_of_card_le hsub
  rw [List.toFinset_card_of_nodup hnd, List.toFinset_card_of_nodup (List.nodup_range N),
    List.length_range, hlen]

theorem shiftForMove_id (accountId oldOrder newOrder : Nat) (x : Account) :
    (DataStore.shiftForMove accountId oldOrder newOrder x).id = x.id := by
  unfold DataStore.shiftForMove
  split_ifs <;> rfl

theorem shiftForMove_self (accountId k : Nat) (x : Account) :
    DataStore.shiftForMove accountId k k x = x := by
  unfold DataStore.shiftForMove
  split_ifs with h1 h2 h3 <;> first
    | rfl
    | (simp only [Bool.and_eq_true, decide_eq_true_eq] at *; omega)

theorem shiftForMove_order (accountId oldOrder newOrder : Nat) (x : Account)
    (hx : (x.id == accountId) = false) (hne : x.order ≠ oldOrder) :
    (DataStore.shiftForMove accountId oldOrder newOrder x).order
      = moveOrder oldOrder newOrder x.order := by
  unfold DataStore.shiftForMove moveOrder
  rw [hx]
  simp only [Bool.false_eq_true, if_false]
  split_ifs <;> simp_all <;> omega

/-- With distinct ids, a reorder rewrites the account list elementwise:
the moved account gets `newOrder`, every other account is shifted. -/
theorem map_shift_updateFirst (accountId newOrder : Nat) (l : List Account) :
    ∀ a : Account,
      l.find? (fun x => x.id == accountId) = some a →
      (l.map Account.id).Nodup →
      ((updateFirst (fun x => x.id == accountId)
          (fun x => { x with order := newOrder }) l).getD l).map
        (DataStore.shiftForMove accountId a.order newOrder)
      = l.map (fun x => if x.id == accountId then { x with order := newOrder }
          else DataStore.shiftForMove accountId a.order newOrder x) := by
  induction l with
  | nil => intro a hfind _; simp [List.find?] at hfind
  | cons x xs ih =>
    intro a hfind hids
    rw [List.map_cons] at hids
    have hids' := List.nodup_cons.mp hids
    cases hx : (x.id == accountId) with
    | true =>
      have h0 : List.find? (fun y => y.id == accountId) (x :: xs) = some x :=
        @List.find?_cons_of_pos _ (fun y => y.id == accountId) x xs hx
      rw [h0, Option.some_inj] at hfind
      subst hfind
      simp only [updateFirst, hx, if_true, Option.getD_some, List.map_cons]
      congr 1
      · simp [DataStore.shiftForMove, hx]
      · apply List.map_congr_left
        intro y hy
        have hyid : (y.id == accountId) = false := by
          rw [beq_iff_eq] at hx
          rw [beq_eq_false_iff_ne]
          intro he
          exact hids'.1 (by
            rw [← hx] at he
            exact List.mem_map.mpr ⟨y, hy, he⟩)
        rw [hyid]
        simp
    | false =>
      have h0 : List.find? (fun y => y.id == accountId) (x :: xs)
          = List.find? (fun y => y.id == accountId) xs :=
        @List.find?_cons_of_neg _ (fun y => y.id == accountId) x xs (by simp [hx])
      rw [h0] at hfind
      obtain ⟨l₁, l₂, hl, hfail, hpa, hupd⟩ := updateFirst_decomp
        (fun x => { x with order := newOrder }) hfind
      have htail := ih a hfind hids'.2
      rw [hupd] at htail
      simp only [updateFirst, hx, Bool.false_eq_true, if_false, hupd, Option.map_some',
        Option.getD_some, List.map_cons]
      simp only [Option.getD_some] at htail
      rw [htail]

/-- Elementwise effect of a reorder on the order values. -/
theorem reorder_orders_eq (accountId newOrder : Nat) (l : List Account) (a : Account)
    (hfind : l.find? (fun x => x.id == accountId) = some a)
    (hids : (l.map Account.id).Nodup)
    (hords : (l.map Account.order).Nodup) :
    (l.map (fun x => if x.id == accountId then { x with order := newOrder }
        else DataStore.shiftForMove accountId a.order newOrder x)).map Account.order
    = (l.map Account.order).map (moveOrder a.order newOrder) := by
  rw [List.map_map, List.map_map]
  apply List.map_congr_left
  intro y hy
  have ha_mem := List.mem_of_find?_eq_some hfind
  have ha_id : (a.id == accountId) = true :=
    @List.find?_some _ (fun x => x.id == accountId) a l hfind
  simp only [Function.comp]
  cases hyid : (y.id == accountId) with
  | true =>
    have hya : y = a := by
      apply List.inj_on_of_nodup_map hids hy ha_mem
      rw [beq_iff_eq] at hyid ha_id
      rw [hyid, ha_id]
    subst hya
    simp [moveOrder, hyid]
  | false =>
    have hya : y ≠ a := by
      intro he
      rw [he, ha_id] at hyid
      simp at hyid
    have hord : y.order ≠ a.order := fun he =>
      hya (List.inj_on_of_nodup_map hords hy ha_mem he)
    simp only [Bool.false_eq_true, if_false]
    exact shiftForMove_order accountId a.order newOrder y hyid hord

/-- `moveOrder` permutes `{0, …, N-1}` when both endpoints lie below `N`. -/
theorem moveOrder_perm_range {oldOrder newOrder N : Nat}
    (hold : oldOrder < N) (hnew : newOrder < N) :
    ((List.range N).map (moveOrder oldOrder newOrder)).Perm (List.range N) := by
  apply perm_range_of_nodup_of_lt
  · apply List.Nodup.map_on ?_ (List.nodup_range N)
    intro i hi j hj hij
    simp only [List.mem_range] at hi hj
    unfold moveOrder at hij
    split_ifs at hij <;> omega
  · intro v hv
    obtain ⟨i, hi, rfl⟩ := List.mem_map.mp hv
    simp only [List.mem_range] at hi
    unfold moveOrder
    split_ifs <;> omega
  · simp

-- ============================================================================
-- C5: reorder preserves the dense permutation of orders
-- ============================================================================

/-- C5: on a store with pairwise-distinct ids whose order values form a
permutation of `{0, …, N-1}`, `reorderAccounts(accountId, newOrder)` with
`newOrder < N` succeeds, the order values still form a permutation of
`{0, …, N-1}`, the moved account's order equals `newOrder`, and when
`newOrder` equals the old order the account list is left unchanged. -/
theorem C5_reorder_preserves_dense_orders (s : Store) (accountId newOrder : Nat)
    (a : Account)
    (hids : (s.accounts.map Account.id).Nodup)
    (hfind : s.accounts.find? (fun x => x.id == accountId) = some a)
    (hperm : (s.accounts.map Account.order).Perm (List.range s.accounts.length))
    (hlt : newOrder < s.accounts.length) :
    (DataStore.reorderAccounts s accountId newOrder).1 = true ∧
    ((DataStore.reorderAccounts s accountId newOrder).2.accounts.map Account.order).Perm
      (List.range s.accounts.length) ∧
    (∀ b ∈ (DataStore.reorderAccounts s accountId newOrder).2.accounts,
      b.id = accountId → b.order = newOrder) ∧
    (newOrder = a.order →
      (DataStore.reorderAccounts s accountId newOrder).2.accounts = s.accounts) := by
  have hords : (s.accounts.map Account.order).Nodup :=
    (hperm.nodup_iff).mpr (List.nodup_range _)
  have ha_mem := List.mem_of_find?_eq_some hfind
  have ha_id : (a.id == accountId) = true :=
    @List.find?_some _ (fun x => x.id == accountId) a s.accounts hfind
  have hold : a.order < s.accounts.length := by
    have hmem : a.order ∈ s.accounts.map Account.order :=
      List.mem_map.mpr ⟨a, ha_mem, rfl⟩
    have := hperm.mem_iff.mp hmem
    simpa [List.mem_range] using this
  have hacc : (DataStore.reorderAccounts s accountId newOrder).2.accounts
      = s.accounts.map (fun x => if x.id == accountId then { x with order := newOrder }
          else DataStore.shiftForMove accountId a.order newOrder x) := by
    simp only [DataStore.reorderAccounts, hfind]
    exact map_shift_updateFirst accountId newOrder s.accounts a hfind hids
  refine ⟨by simp [DataStore.reorderAccounts, hfind], ?_, ?_, ?_⟩
  · rw [hacc, reorder_orders_eq accountId newOrder s.accounts a hfind hids hords]
    exact (hperm.map _).trans (moveOrder_perm_range hold hlt)
  · intro b hb hbid
    rw [hacc] at hb
    obtain ⟨x, hx, rfl⟩ := List.mem_map.mp hb
    cases hxid : (x.id == accountId) with
    | true => simp [hxid]
    | false =>
      exfalso
      simp only [hxid, Bool.false_eq_true, if_false] at hbid
      rw [shiftForMove_id] at hbid
      rw [beq_eq_false_iff_ne] at hxid
      exact hxid hbid
  · intro hno
    rw [hacc]
    have hpt : ∀ x ∈ s.accounts,
        (if x.id == accountId then { x with order := newOrder }
          else DataStore.shiftForMove accountId a.order newOrder x) = x := by
      intro x hx
      cases hxid : (x.id == accountId) with
      | true =>
        have hxa : x = a := by
          apply List.inj_on_of_nodup_map hids hx ha_mem
          rw [beq_iff_eq] at hxid ha_id
          rw [hxid, ha_id]
        subst hxa
        rw [hno]
        simp
      | false =>
        simp only [hxid, Bool.false_eq_true, if_false]
        rw [hno]
        exact shiftForMove_self accountId a.order x
    rw [List.map_congr_left hpt]
    simp

/-- C5 witness: moving the order-0 account of the three-account store to
position 2. -/
theorem C5_reorder_preserves_dense_orders_witness :
    (DataStore.reorderAccounts exStore3 0 2).1 = true ∧
    ((DataStore.reorderAccounts exStore3 0 2).2.accounts.map Account.order).Perm
      (List.range exStore3.accounts.length) ∧
    (∀ b ∈ (DataStore.reorderAccounts exStore3 0 2).2.accounts,
      b.id = 0 → b.order = 2) ∧
    (2 = exAccount.order →
      (DataStore.reorderAccounts exStore3 0 2).2.accounts = exStore3.accounts) :=
  C5_reorder_preserves_dense_orders exStore3 0 2 exAccount
    (by decide) (by decide) (by decide) (by decide)

theorem updateFirst_none_forall {p : α → Bool} {f : α → α} {l : List α}
    (h : updateFirst p f l = none) : ∀ x ∈ l, p x = false := by
  induction l with
  | nil => simp
  | cons x xs ih =>
    intro y hy
    by_cases hx : p x
    · simp [updateFirst, hx] at h
    · simp only [updateFirst, hx, if_neg, Bool.false_eq_true, if_false] at h
      rcases List.mem_cons.mp hy with rfl | hy
      · simpa using hx
      · exact ih (by
          cases hxs : updateFirst p f xs with
          | none => rfl
          | some c => rw [hxs] at h; simp at h) y hy

theorem updateFirst_mem_of {p : α → Bool} {f : α → α} {l l' : List α}
    (h : updateFirst p f l = some l') (e : α) (he : e ∈ l) (hpe : p e = false) :
    e ∈ l' := by
  induction l generalizing l' with
  | nil => simp at he
  | cons x xs ih =>
    by_cases hx : p x
    · simp only [updateFirst, hx, if_true, Option.some_inj] at h
      subst h
      rcases List.mem_cons.mp he with rfl | he
      · rw [hx] at hpe; simp at hpe
      · exact List.mem_cons_of_mem _ he
    · simp only [updateFirst, hx, Bool.false_eq_true, if_false] at h
      cases hxs : updateFirst p f xs with
      | none => rw [hxs] at h; simp at h
      | some ys =>
        rw [hxs] at h
        simp only [Option.map_some', Option.some_inj] at h
        subst h
        rcases List.mem_cons.mp he with rfl | he
        · exact List.mem_cons_self _ _
        · exact List.mem_cons_of_mem _ (ih hxs he)

theorem updateFirst_mem_or {p : α → Bool} {f : α → α} {l l' : List α}
    (h : updateFirst p f l = some l') (e : α) (he : e ∈ l') :
    e ∈ l ∨ ∃ x ∈ l, e = f x := by
  induction l generalizing l' with
  | nil => simp [updateFirst] at h
  | cons x xs ih =>
    by_cases hx : p x
    · simp only [updateFirst, hx, if_true, Option.some_inj] at h
      subst h
      rcases List.mem_cons.mp he with rfl | he
      · exact Or.inr ⟨x, List.mem_cons_self x xs, rfl⟩
      · exact Or.inl (List.mem_cons_of_mem x he)
    · simp only [updateFirst, hx, Bool.false_eq_true, if_false] at h
      cases hxs : updateFirst p f xs with
      | none => rw [hxs] at h; simp at h
      | some ys =>
        rw [hxs] at h
        simp only [Option.map_some', Option.some_inj] at h
        subst h
        rcases List.mem_cons.mp he with rfl | he
        · exact Or.inl (List.mem_cons_self _ _)
        · rcases ih hxs he with hin | ⟨y, hy, hey⟩
          · exact Or.inl (List.mem_cons_of_mem _ hin)
          · exact Or.inr ⟨y, List.mem_cons_of_mem _ hy, hey⟩

theorem updateFirst_map_eq_on {p : α → Bool} {f : α → α} {l l' : List α} (g : α → β)
    (h : updateFirst p f l = some l') (hg : ∀ x, p x = true → g (f x) = g x) :
    l'.map g = l.map g := by
  induction l generalizing l' with
  | nil => simp [updateFirst] at h
  | cons x xs ih =>
    by_cases hx : p x
    · simp only [updateFirst, hx, if_true, Option.some_inj] at h
      subst h
      simp [hg x hx]
    · simp only [updateFirst, hx, Bool.false_eq_true, if_false] at h
      cases hxs : updateFirst p f xs with
      | none => rw [hxs] at h; simp at h
      | some ys =>
        rw [hxs] at h
        simp only [Option.map_some', Option.some_inj] at h
        subst h
        simp [ih hxs]

-- ============================================================================
-- TOTP lemmas (C6, C7, C8)
-- ============================================================================

theorem counterBytes_eq_spec {w : Nat} (hw : w < 4294967296) :
    TOTP.counterBytes w = specCounter w := by
  have h1 : w % 4294967296 = w := Nat.mod_eq_of_lt hw
  have e7 : w / 256 ^ 7 = 0 := Nat.div_eq_of_lt (lt_of_lt_of_le hw (by norm_num))
  have e6 : w / 256 ^ 6 = 0 := Nat.div_eq_of_lt (lt_of_lt_of_le hw (by norm_num))
  have e5 : w / 256 ^ 5 = 0 := Nat.div_eq_of_lt (lt_of_lt_of_le hw (by norm_num))
  have e4 : w / 256 ^ 4 = 0 := Nat.div_eq_of_lt (lt_of_lt_of_le hw (by norm_num))
  simp only [TOTP.counterBytes, specCounter, h1, e7, e6, e5, e4]
  norm_num

theorem hotpValue_eq_spec {d : List Nat} (hlen : d.length = 20) :
    TOTP.hotpValue d = specTruncate d := by
  simp [TOTP.hotpValue, specTruncate, hlen]

theorem computed_eq_spec (hmac : List Nat → List Nat → List Nat) (key : List Nat)
    {w : Nat} (hw : w < 4294967296)
    (hlen : (hmac key (TOTP.counterBytes w)).length = 20) :
    TOTP.padStart (Nat.repr (TOTP.hotpValue (hmac key (TOTP.counterBytes w)) % 1000000)) 6 '0'
      = specTotpString hmac key w := by
  rw [specTotpString, ← counterBytes_eq_spec hw, hotpValue_eq_spec hlen]

theorem cacheGet_mem {cache : TOTP.Cache} {secret : String} {v : String × Nat}
    (h : TOTP.cacheGet cache secret = some v) : (secret, v) ∈ cache := by
  unfold TOTP.cacheGet at h
  cases hf : cache.find? (fun e => e.1 == secret) with
  | none => rw [hf] at h; simp at h
  | some e =>
    rw [hf] at h
    simp only [Option.map_some', Option.some_inj] at h
    have hmem := List.mem_of_find?_eq_some hf
    have hkey : (e.1 == secret) = true :=
      @List.find?_some _ (fun e => e.1 == secret) e cache hf
    rw [beq_iff_eq] at hkey
    obtain ⟨k, cv⟩ := e
    simp only at hkey h
    rw [← hkey, ← h] at *
    exact hmem

theorem cacheGet_eq_none_or {cache : TOTP.Cache} {secret : String} {w : Nat}
    (hmiss : ∀ e ∈ cache, e.1 = secret → e.2.2 ≠ w) :
    TOTP.cacheGet cache secret = none ∨
    ∃ code win, TOTP.cacheGet cache secret = some (code, win) ∧ win ≠ w := by
  cases hget : TOTP.cacheGet cache secret with
  | none => exact Or.inl rfl
  | some cv =>
    obtain ⟨code, win⟩ := cv
    exact Or.inr ⟨code, win, rfl, hmiss (secret, code, win) (cacheGet_mem hget) rfl⟩

theorem base32DecodeLoop_error (l : List Char) :
    ∀ bits value output,
      (∃ c ∈ l.takeWhile (fun c => c.toUpper ≠ '='), c.toUpper ∉ TOTP.alphabet.data) →
      TOTP.base32DecodeLoop l bits value output = .error "Invalid base32 character" := by
  induction l with
  | nil => intro bits value output hbad; simp at hbad
  | cons c rest ih =>
    intro bits value output hbad
    by_cases hc : c.toUpper = '='
    · simp [List.takeWhile_cons, hc] at hbad
    · cases hidx : TOTP.alphabet.data.findIdx? (fun a => a == c.toUpper) with
      | none =>
        simp only [TOTP.base32DecodeLoop, if_neg hc, hidx]
      | some i =>
        have hcmem : c.toUpper ∈ TOTP.alphabet.data := by
          have hsome : (TOTP.alphabet.data.findIdx? (fun a => a == c.toUpper)).isSome := by
            rw [hidx]; rfl
          rw [List.findIdx?_isSome] at hsome
          obtain ⟨x, hx, hxe⟩ := List.any_eq_true.mp hsome
          rw [beq_iff_eq] at hxe
          rw [← hxe]
          exact hx
        have hbad2 : ∃ x ∈ rest.takeWhile (fun c => c.toUpper ≠ '='),
            x.toUpper ∉ TOTP.alphabet.data := by
          obtain ⟨x, hx, hxbad⟩ := hbad
          rw [List.takeWhile_cons, if_pos (by simpa using hc)] at hx
          rcases List.mem_cons.mp hx with rfl | hx
          · exact absurd hcmem hxbad
          · exact ⟨x, hx, hxbad⟩
        simp only [TOTP.base32DecodeLoop, if_neg hc, hidx]
        split
        · exact ih _ _ _ hbad2
        · exact ih _ _ _ hbad2

theorem base32Decode_error {s : String} (hbad : hasInvalidBase32Char s) :
    TOTP.base32Decode s = .error "Invalid base32 character" :=
  base32DecodeLoop_error s.data 0 0 [] hbad

theorem generateFresh_fst (hmac : List Nat → List Nat → List Nat) (w : Nat)
    (cache : TOTP.Cache) (secret : String) (key : List Nat)
    (hdec : TOTP.base32Decode secret = .ok key) :
    (TOTP.generateFresh hmac w cache secret).1
      = TOTP.padStart
          (Nat.repr (TOTP.hotpValue (hmac key (TOTP.counterBytes w)) % 1000000)) 6 '0' := by
  simp [TOTP.generateFresh, hdec]

theorem generateFresh_wf (hmac : List Nat → List Nat → List Nat) (w : Nat)
    (cache : TOTP.Cache) (secret : String) (key : List Nat)
    (hdec : TOTP.base32Decode secret = .ok key)
    (hwf : cacheWF hmac w cache) :
    cacheWF hmac w (TOTP.generateFresh hmac w cache secret).2 := by
  intro e he hwin
  simp only [TOTP.generateFresh, hdec] at he
  have hset : ∀ e, e ∈ TOTP.cacheSet cache secret
      (TOTP.padStart
        (Nat.repr (TOTP.hotpValue (hmac key (TOTP.counterBytes w)) % 1000000)) 6 '0', w) →
      e.2.2 = w → computeCode hmac w e.1 = some e.2.1 := by
    intro e he hwin
    unfold TOTP.cacheSet at he
    rcases hupd : updateFirst (fun x => x.1 == secret)
        (fun _ => (secret, TOTP.padStart
          (Nat.repr (TOTP.hotpValue (hmac key (TOTP.counterBytes w)) % 1000000)) 6 '0', w))
        cache with _ | c
    · rw [hupd] at he
      rcases List.mem_append.mp he with hin | hnew
      · exact hwf e hin hwin
      · rw [List.mem_singleton] at hnew
        subst hnew
        simp [computeCode, hdec]
    · rw [hupd] at he
      rcases updateFirst_mem_or hupd e he with hin | ⟨x, hx, hex⟩
      · exact hwf e hin hwin
      · subst hex
        simp [computeCode, hdec]
  split at he
  · split at he
    · simp at he
    · exact hset e (List.mem_filter.mp he).1 hwin
  · exact hset e he hwin

theorem generateFresh_bound (hmac : List Nat → List Nat → List Nat) (w : Nat)
    (cache : TOTP.Cache) (secret : String)
    (hnodup : (cache.map (fun e => e.1)).Nodup)
    (hsize : cache.length ≤ TOTP.MAX_CACHE_SIZE) :
    (TOTP.generateFresh hmac w cache secret).2.length ≤ TOTP.MAX_CACHE_SIZE ∧
    ((TOTP.generateFresh hmac w cache secret).2.map (fun e => e.1)).Nodup ∧
    (∀ e ∈ cache, e.1 ≠ secret → e ∉ (TOTP.generateFresh hmac w cache secret).2 →
      (TOTP.generateFresh hmac w cache secret).2 = [] ∨ e.2.2 ≠ w) := by
  cases hdec : TOTP.base32Decode secret with
  | error msg =>
    simp only [TOTP.generateFresh, hdec]
    exact ⟨hsize, hnodup, fun e he hne hnin => absurd he hnin⟩
  | ok key =>
    set v : String × Nat := (TOTP.padStart
      (Nat.repr (TOTP.hotpValue (hmac key (TOTP.counterBytes w)) % 1000000)) 6 '0', w) with hv
    set c1 := TOTP.cacheSet cache secret v with hc1
    have F1 : (c1.map (fun e => e.1)).Nodup := by
      rw [hc1]
      unfold TOTP.cacheSet
      cases hupd : updateFirst (fun e => e.1 == secret) (fun _ => (secret, v)) cache with
      | some c =>
        rw [updateFirst_map_eq_on (fun e => e.1) hupd
          (fun x hx => (beq_iff_eq.mp hx).symm)]
        exact hnodup
      | none =>
        have hforall := updateFirst_none_forall hupd
        rw [List.map_append]
        simp only [List.map_cons, List.map_nil]
        apply List.Nodup.append hnodup (List.nodup_singleton _)
        intro a ha hb
        rw [List.mem_singleton] at hb
        subst hb
        obtain ⟨x, hx, hxe⟩ := List.mem_map.mp ha
        have hfx := hforall x hx
        rw [beq_eq_false_iff_ne] at hfx
        exact hfx hxe
    have F2 : c1.length ≤ cache.length + 1 := by
      rw [hc1]
      unfold TOTP.cacheSet
      cases hupd : updateFirst (fun e => e.1 == secret) (fun _ => (secret, v)) cache with
      | some c =>
        rw [updateFirst_length hupd]
        omega
      | none => simp
    have F3 : ∀ e ∈ cache, e.1 ≠ secret → e ∈ c1 := by
      intro e he hne
      rw [hc1]
      unfold TOTP.cacheSet
      cases hupd : updateFirst (fun e => e.1 == secret) (fun _ => (secret, v)) cache with
      | some c => exact updateFirst_mem_of hupd e he (by simp [hne])
      | none => exact List.mem_append_left _ he
    have hres : (TOTP.generateFresh hmac w cache secret).2
        = if TOTP.MAX_CACHE_SIZE < c1.length then
            (if TOTP.MAX_CACHE_SIZE < (c1.filter (fun e => e.2.2 == w)).length then []
             else c1.filter (fun e => e.2.2 == w))
          else c1 := by
      simp only [TOTP.generateFresh, hdec]
    rw [hres]
    by_cases hbig : TOTP.MAX_CACHE_SIZE < c1.length
    · rw [if_pos hbig]
      by_cases hbig2 : TOTP.MAX_CACHE_SIZE < (c1.filter (fun e => e.2.2 == w)).length
      · rw [if_pos hbig2]
        exact ⟨by simp, by simp, fun e he hne hnin => Or.inl rfl⟩
      · rw [if_neg hbig2]
        refine ⟨Nat.le_of_not_lt hbig2, ?_, ?_⟩
        · exact F1.sublist (List.Sublist.map _ (List.filter_sublist c1))
        · intro e he hne hnin
          right
          intro hww
          exact hnin (List.mem_filter.mpr ⟨F3 e he hne, by simp [hww]⟩)
    · rw [if_neg hbig]
      refine ⟨Nat.le_of_not_lt hbig, F1, ?_⟩
      intro e he hne hnin
      exact absurd (F3 e he hne) hnin

-- ============================================================================
-- C6: RFC 4226 dynamic truncation and per-window determinism
-- ============================================================================

/-- C6: for a secret that decodes, a window below 2^32 (every realistic
window), an HMAC primitive producing 20-byte digests, and a well-formed
cache, `generate` returns exactly the string prescribed by the spec's RFC
4226 dynamic-truncation formula (`specTotpString`, built from the spec's
words), keeps the cache well formed, and a second call in the same window
returns the same string. -/
theorem C6_generate_rfc_and_deterministic (hmac : List Nat → List Nat → List Nat)
    (w : Nat) (cache : TOTP.Cache) (secret : String) (key : List Nat)
    (hdec : TOTP.base32Decode secret = .ok key)
    (hw : w < 4294967296)
    (hlen : (hmac key (TOTP.counterBytes w)).length = 20)
    (hwf : cacheWF hmac w cache) :
    (TOTP.generate hmac w cache secret).1 = specTotpString hmac key w ∧
    cacheWF hmac w (TOTP.generate hmac w cache secret).2 ∧
    (TOTP.generate hmac w (TOTP.generate hmac w cache secret).2 secret).1
      = (TOTP.generate hmac w cache secret).1 := by
  have hcomp : computeCode hmac w secret = some (specTotpString hmac key w) := by
    simp only [computeCode, hdec]
    rw [computed_eq_spec hmac key hw hlen]
  have main : ∀ cache2 : TOTP.Cache, cacheWF hmac w cache2 →
      (TOTP.generate hmac w cache2 secret).1 = specTotpString hmac key w ∧
      cacheWF hmac w (TOTP.generate hmac w cache2 secret).2 := by
    intro cache2 hwf2
    have hfresh1 : (TOTP.generateFresh hmac w cache2 secret).1
        = specTotpString hmac key w := by
      rw [generateFresh_fst hmac w cache2 secret key hdec]
      exact computed_eq_spec hmac key hw hlen
    have hfresh2 := generateFresh_wf hmac w cache2 secret key hdec hwf2
    cases hget : TOTP.cacheGet cache2 secret with
    | none =>
      simp only [TOTP.generate, hget]
      exact ⟨hfresh1, hfresh2⟩
    | some cv =>
      obtain ⟨code, win⟩ := cv
      cases hwin : (win == w) with
      | false =>
        simp only [TOTP.generate, hget, hwin, Bool.false_eq_true, if_false]
        exact ⟨hfresh1, hfresh2⟩
      | true =>
        have hmem := cacheGet_mem hget
        have hcode := hwf2 (secret, code, win) hmem (beq_iff_eq.mp hwin)
        rw [hcomp] at hcode
        simp only [TOTP.generate, hget, hwin, if_true]
        exact ⟨(Option.some_inj.mp hcode).symm, hwf2⟩
  obtain ⟨h1, h2⟩ := main cache hwf
  obtain ⟨h3, _⟩ := main _ h2
  exact ⟨h1, h2, by rw [h3, h1]⟩

/-- C6 witness: a constant 20-byte digest, window 1, empty cache and the
two-character secret `AA` (which decodes to the single byte 0). -/
theorem C6_generate_rfc_and_deterministic_witness :
    (TOTP.generate exHmac 1 [] "AA").1 = specTotpString exHmac [0] 1 ∧
    cacheWF exHmac 1 (TOTP.generate exHmac 1 [] "AA").2 ∧
    (TOTP.generate exHmac 1 (TOTP.generate exHmac 1 [] "AA").2 "AA").1
      = (TOTP.generate exHmac 1 [] "AA").1 :=
  C6_generate_rfc_and_deterministic exHmac 1 [] "AA" [0] rfl (by decide) rfl
    (fun e he _ => absurd he (List.not_mem_nil e))

-- ============================================================================
-- C7: decode errors surface as the sentinel, not as exceptions
-- ============================================================================

/-- C7: for a secret containing a character outside the Base32 alphabet
before any `=` pad, and a cache without a current-window entry for that
secret, `generate` catches the decode error and returns the sentinel
string `Error`, leaving the cache untouched. -/
theorem C7_decode_error_yields_sentinel (hmac : List Nat → List Nat → List Nat)
    (w : Nat) (cache : TOTP.Cache) (secret : String)
    (hbad : hasInvalidBase32Char secret)
    (hmiss : ∀ e ∈ cache, e.1 = secret → e.2.2 ≠ w) :
    TOTP.generate hmac w cache secret = ("Error", cache) := by
  have hdec := base32Decode_error hbad
  have hfresh : TOTP.generateFresh hmac w cache secret = ("Error", cache) := by
    simp [TOTP.generateFresh, hdec]
  rcases cacheGet_eq_none_or hmiss with hget | ⟨code, win, hget, hwin⟩
  · simp only [TOTP.generate, hget]
    exact hfresh
  · simp only [TOTP.generate, hget]
    rw [if_neg (by simp [hwin])]
    exact hfresh

/-- C7 witness: the one-character secret `!` on the empty cache. -/
theorem C7_decode_error_yields_sentinel_witness :
    TOTP.generate exHmac 0 [] "!" = ("Error", []) :=
  C7_decode_error_yields_sentinel exHmac 0 [] "!" (by unfold hasInvalidBase32Char; decide)
    (fun e he _ => absurd he (List.not_mem_nil e))

-- ============================================================================
-- C8: bounded cache with window-staleness eviction only
-- ============================================================================

/-- C8: starting from a cache of at most 100 entries with pairwise-distinct
keys, `generate` leaves a cache of at most 100 entries with
pairwise-distinct keys, and any original entry (other than the generated
secret's own) that disappears was evicted either by the full clear or
because its stored window differs from the current one — never because of
access recency. -/
theorem C8_cache_bounded (hmac : List Nat → List Nat → List Nat) (w : Nat)
    (cache : TOTP.Cache) (secret : String)
    (hnodup : (cache.map (fun e => e.1)).Nodup)
    (hsize : cache.length ≤ TOTP.MAX_CACHE_SIZE) :
    (TOTP.generate hmac w cache secret).2.length ≤ TOTP.MAX_CACHE_SIZE ∧
    ((TOTP.generate hmac w cache secret).2.map (fun e => e.1)).Nodup ∧
    (∀ e ∈ cache, e.1 ≠ secret → e ∉ (TOTP.generate hmac w cache secret).2 →
      (TOTP.generate hmac w cache secret).2 = [] ∨ e.2.2 ≠ w) := by
  cases hget : TOTP.cacheGet cache secret with
  | some cv =>
    obtain ⟨code, win⟩ := cv
    cases hwin : (win == w) with
    | true =>
      simp only [TOTP.generate, hget, hwin, if_true]
      exact ⟨hsize, hnodup, fun e he hne hnin => absurd he hnin⟩
    | false =>
      simp only [TOTP.generate, hget, hwin, Bool.false_eq_true, if_false]
      exact generateFresh_bound hmac w cache secret hnodup hsize
  | none =>
    simp only [TOTP.generate, hget]
    exact generateFresh_bound hmac w cache secret hnodup hsize

/-- C8 witness: a two-entry cache, one entry stale, one current. -/
theorem C8_cache_bounded_witness :
    (TOTP.generate exHmac 5 [("X", "111111", 5), ("Y", "222222", 4)] "AA").2.length
      ≤ TOTP.MAX_CACHE_SIZE ∧
    ((TOTP.generate exHmac 5 [("X", "111111", 5), ("Y", "222222", 4)] "AA").2.map
      (fun e => e.1)).Nodup ∧
    (∀ e ∈ [("X", "111111", 5), ("Y", "222222", 4)], e.1 ≠ "AA" →
      e ∉ (TOTP.generate exHmac 5 [("X", "111111", 5), ("Y", "222222", 4)] "AA").2 →
      (TOTP.generate exHmac 5 [("X", "111111", 5), ("Y", "222222", 4)] "AA").2 = []
        ∨ e.2.2 ≠ 5) :=
  C8_cache_bounded exHmac 5 [("X", "111111", 5), ("Y", "222222", 4)] "AA"
    (by decide) (by decide)

-- ============================================================================
-- FileParser lemmas (C9)
-- ============================================================================

theorem bestEntry_mem (b : String × Nat) (l : List (String × Nat)) :
    FileParser.bestEntry b l = b ∨ FileParser.bestEntry b l ∈ l := by
  induction l generalizing b with
  | nil => exact Or.inl rfl
  | cons x xs ih =>
    rw [FileParser.bestEntry]
    rcases ih (if b.2 < x.2 then x else b) with h | h
    · rw [h]
      split_ifs with hc
      · exact Or.inr (List.mem_cons_self x xs)
      · exact Or.inl rfl
    · exact Or.inr (List.mem_cons_of_mem x h)

theorem bestEntry_max (b : String × Nat) (l : List (String × Nat)) :
    ∀ x ∈ b :: l, x.2 ≤ (FileParser.bestEntry b l).2 := by
  induction l generalizing b with
  | nil =>
    intro x hx
    rw [List.mem_singleton] at hx
    subst hx
    exact le_refl _
  | cons y ys ih =>
    intro x hx
    rw [FileParser.bestEntry]
    have hb : b.2 ≤ (if b.2 < y.2 then y else b).2 := by
      split_ifs with h
      · omega
      · exact le_refl _
    have hy : y.2 ≤ (if b.2 < y.2 then y else b).2 := by
      split_ifs with h
      · exact le_refl _
      · omega
    have hbest := ih (if b.2 < y.2 then y else b)
    rcases List.mem_cons.mp hx with rfl | hx
    · exact le_trans hb (hbest _ (List.mem_cons_self _ _))
    · rcases List.mem_cons.mp hx with rfl | hx
      · exact le_trans hy (hbest _ (List.mem_cons_self _ _))
      · exact hbest x (List.mem_cons_of_mem _ hx)

theorem bestEntry_first (b : String × Nat) (l : List (String × Nat)) :
    ∃ pre post, b :: l = pre ++ (FileParser.bestEntry b l) :: post ∧
      ∀ x ∈ pre, x.2 < (FileParser.bestEntry b l).2 := by
  induction l generalizing b with
  | nil => exact ⟨[], [], rfl, by simp⟩
  | cons y ys ih =>
    rw [FileParser.bestEntry]
    obtain ⟨pre, post, heq, hlt⟩ := ih (if b.2 < y.2 then y else b)
    by_cases h : b.2 < y.2
    · rw [if_pos h] at heq hlt ⊢
      refine ⟨b :: pre, post, ?_, ?_⟩
      · rw [List.cons_append, ← heq]
      · intro x hx
        rcases List.mem_cons.mp hx with rfl | hx
        · calc x.2 < y.2 := h
            _ ≤ _ := bestEntry_max y ys y (List.mem_cons_self _ _)
        · exact hlt x hx
    · rw [if_neg h] at heq hlt ⊢
      cases pre with
      | nil =>
        simp only [List.nil_append] at heq
        injection heq with hb hpost
        refine ⟨[], y :: ys, ?_, by simp⟩
        rw [List.nil_append, ← hb]
      | cons p0 pre₂ =>
        rw [List.cons_append, List.cons.injEq] at heq
        obtain ⟨hp0, heq₂⟩ := heq
        subst hp0
        refine ⟨b :: y :: pre₂, post, ?_, ?_⟩
        · simp only [List.cons_append]
          rw [← heq₂]
        · intro x hx
          have hb2 : b.2 < (FileParser.bestEntry b ys).2 :=
            hlt b (List.mem_cons_self _ _)
          rcases List.mem_cons.mp hx with rfl | hx
          · exact hb2
          · rcases List.mem_cons.mp hx with rfl | hx
            · omega
            · exact hlt x (List.mem_cons_of_mem _ hx)

theorem map_eq_append_cons {f : α → β} {l : List α} {l₁ l₂ : List β} {x : β}
    (h : l.map f = l₁ ++ x :: l₂) :
    ∃ m₁ a m₂, l = m₁ ++ a :: m₂ ∧ m₁.map f = l₁ ∧ f a = x ∧ m₂.map f = l₂ := by
  induction l generalizing l₁ with
  | nil => cases l₁ <;> simp at h
  | cons y ys ih =>
    cases l₁ with
    | nil =>
      rw [List.map_cons, List.nil_append, List.cons.injEq] at h
      exact ⟨[], y, ys, rfl, rfl, h.1, h.2⟩
    | cons z zs =>
      rw [List.map_cons, List.cons_append, List.cons.injEq] at h
      obtain ⟨m₁, a, m₂, hsplit, hm₁, ha, hm₂⟩ := ih h.2
      exact ⟨y :: m₁, a, m₂, by rw [List.cons_append, ← hsplit],
        by rw [List.map_cons, hm₁, h.1], ha, hm₂⟩

-- ============================================================================
-- C9: delimiter auto-detection
-- ============================================================================

/-- C9: `detectDelimiter` scores each candidate of the fixed list by the
number of the first 3 non-blank, non-comment preview lines that split into
at least 3 parts, returns `none` exactly when every candidate scores 0,
and otherwise returns a maximal-scoring candidate that strictly beats
every candidate before it in the list (ties resolved by list order). -/
theorem C9_detectDelimiter_best_scoring (content : String) :
    (FileParser.detectDelimiter content = none ↔
      ∀ d ∈ FileParser.delimiters,
        FileParser.delimScore (FileParser.detectLines content) d = 0) ∧
    (∀ d, FileParser.detectDelimiter content = some d →
      d ∈ FileParser.delimiters ∧
      0 < FileParser.delimScore (FileParser.detectLines content) d ∧
      (∀ e ∈ FileParser.delimiters,
        FileParser.delimScore (FileParser.detectLines content) e ≤
          FileParser.delimScore (FileParser.detectLines content) d) ∧
      ∃ pre post, FileParser.delimiters = pre ++ d :: post ∧
        ∀ e ∈ pre, FileParser.delimScore (FileParser.detectLines content) e <
          FileParser.delimScore (FileParser.detectLines content) d) := by
  by_cases hnil : (FileParser.detectLines content).length = 0
  · have hdet : FileParser.detectDelimiter content = none := by
      simp only [FileParser.detectDelimiter]
      rw [if_pos hnil]
    have hempty : FileParser.detectLines content = [] := List.length_eq_zero.mp hnil
    refine ⟨⟨fun _ d _ => ?_, fun _ => hdet⟩, fun d hd => ?_⟩
    · rw [hempty]
      rfl
    · rw [hdet] at hd
      cases hd
  · set L := FileParser.detectLines content with hL
    set f : String → String × Nat := fun d => (d, FileParser.delimScore L d) with hf
    set b := f "|" with hb
    set rest : List (String × Nat) :=
      [f ":", f ";", f ";;;", f ";;", f "\t", f ","] with hrest
    set best := FileParser.bestEntry b rest with hbest
    have hdet : FileParser.detectDelimiter content =
        (if 0 < best.2 then some best.1 else none) := by
      simp only [FileParser.detectDelimiter, FileParser.delimiters, List.map_cons,
        List.map_nil]
      rw [if_neg hnil]
    have hmap : FileParser.delimiters.map f = b :: rest := by
      simp only [FileParser.delimiters, List.map_cons, List.map_nil, hb, hrest]
    have hmem_best : best ∈ FileParser.delimiters.map f := by
      rw [hmap]
      rcases bestEntry_mem b rest with h | h
      · rw [hbest, h]
        exact List.mem_cons_self _ _
      · exact List.mem_cons_of_mem _ (by rw [hbest]; exact h)
    obtain ⟨d₀, hd₀, hfd₀⟩ := List.mem_map.mp hmem_best
    have hbest1 : best.1 = d₀ := by rw [← hfd₀]
    have hbest2 : best.2 = FileParser.delimScore L d₀ := by rw [← hfd₀]
    have hmax : ∀ e ∈ FileParser.delimiters, FileParser.delimScore L e ≤ best.2 := by
      intro e he
      have hmem : f e ∈ b :: rest := by
        rw [← hmap]
        exact List.mem_map_of_mem f he
      rw [hbest]
      exact bestEntry_max b rest (f e) hmem
    refine ⟨?_, ?_⟩
    · rw [hdet]
      constructor
      · intro hnone d hd
        split_ifs at hnone with hpos
        have h0 : best.2 = 0 := by omega
        have hle := hmax d hd
        omega
      · intro hall
        rw [if_neg ?_]
        rw [hbest2]
        have := hall d₀ hd₀
        omega
    · intro d hd
      rw [hdet] at hd
      split_ifs at hd with hpos
      have hdd : best.1 = d := Option.some_inj.mp hd
      subst hdd
      rw [hbest1]
      refine ⟨hd₀, by rw [← hbest2]; exact hpos, fun e he => by
        rw [← hbest2]; exact hmax e he, ?_⟩
      obtain ⟨pre, post, hsplit, hlt⟩ := bestEntry_first b rest
      have hmap2 : FileParser.delimiters.map f = pre ++ best :: post := by
        rw [hmap, hsplit, hbest]
      obtain ⟨m₁, a, m₂, hdl, hm₁, hfa, hm₂⟩ := map_eq_append_cons hmap2
      have ha : a = d₀ := by
        rw [← hbest1, ← hfa]
      refine ⟨m₁, m₂, by rw [hdl, ha], ?_⟩
      intro e he
      have hfe : f e ∈ pre := by
        rw [← hm₁]
        exact List.mem_map_of_mem f he
      have hlt2 := hlt (f e) hfe
      rw [hbest] at hbest2
      rw [← hbest2] at *
      exact hlt2

/-- C9 witness: the theorem instantiated at a concrete two-line preview
(where `|` wins with score 2). -/
theorem C9_detectDelimiter_best_scoring_witness :
    (FileParser.detectDelimiter "a|b|c\nd|e|f" = none ↔
      ∀ d ∈ FileParser.delimiters,
        FileParser.delimScore (FileParser.detectLines "a|b|c\nd|e|f") d = 0) ∧
    (∀ d, FileParser.detectDelimiter "a|b|c\nd|e|f" = some d →
      d ∈ FileParser.delimiters ∧
      0 < FileParser.delimScore (FileParser.detectLines "a|b|c\nd|e|f") d ∧
      (∀ e ∈ FileParser.delimiters,
        FileParser.delimScore (FileParser.detectLines "a|b|c\nd|e|f") e ≤
          FileParser.delimScore (FileParser.detectLines "a|b|c\nd|e|f") d) ∧
      ∃ pre post, FileParser.delimiters = pre ++ d :: post ∧
        ∀ e ∈ pre, FileParser.delimScore (FileParser.detectLines "a|b|c\nd|e|f") e <
          FileParser.delimScore (FileParser.detectLines "a|b|c\nd|e|f") d) :=
  C9_detectDelimiter_best_scoring "a|b|c\nd|e|f"

-- ============================================================================
-- C1: delete compaction
-- ============================================================================

/-- C1 (failing input): on the dense store `exStore3` (orders 0, 1, 2),
`deleteAccount` of the account whose order is 1 succeeds but leaves the
remaining orders `[0, 2]`: no order above 1 is decremented, so the result
is not a dense permutation of `{0, 1}`.  A subsequent `addAccount` then
assigns `order = length = 2`, colliding with the surviving order 2. -/
theorem C1_deleteAccount_leaves_order_gap :
    (DataStore.deleteAccount exStore3 1).1 = true ∧
    ((DataStore.deleteAccount exStore3 1).2.accounts.map Account.order) = [0, 2] ∧
    ¬ (((DataStore.deleteAccount exStore3 1).2.accounts.map Account.order).Perm [0, 1]) ∧
    ((DataStore.addAccount (DataStore.deleteAccount exStore3 1).2 0 exCandNew).2.accounts.map
      Account.order) = [0, 2, 2] := by
  refine ⟨rfl, rfl, by decide, rfl⟩

-- ============================================================================
-- C2: merge idempotence
-- ============================================================================

/-- C2 (counterexample): importing `[exCandLower]` (a candidate whose TOTP
is written in lower case) into the empty store and then importing the very
same batch again yields `added = 1` on the second pass, not 0, and grows
the store from 1 to 2 accounts: `addAccount` stores the secret normalized
to upper case, so the second pass sees two present-but-different secrets
(compared with `===`) and inserts a duplicate. -/
theorem C2_idempotence_counterexample :
    (DataStore.importAccounts 0 exStore0 [exCandLower]).1.accounts.length = 1 ∧
    (DataStore.importAccounts 0
        (DataStore.importAccounts 0 exStore0 [exCandLower]).1 [exCandLower]).2.added = 1 ∧
    (DataStore.importAccounts 0
        (DataStore.importAccounts 0 exStore0 [exCandLower]).1
        [exCandLower]).1.accounts.length = 2 := by
  refine ⟨by decide, by decide, by decide⟩

/-- C2 (amended): merge idempotence holds for batches whose candidates all
have an empty (after trim) TOTP: re-importing the identical batch yields
`added = 0` on the second pass and leaves the account count unchanged.
(With non-empty TOTP secrets the differing-secret branch of the conflict
table can insert on every pass, as the counterexample shows.) -/
theorem C2_import_twice_no_totp_idempotent (now now2 : Nat) (s : Store)
    (batch : List Candidate)
    (hall : ∀ c ∈ batch, strTrim c.totp = "") :
    (DataStore.importAccounts now2
        (DataStore.importAccounts now s batch).1 batch).2.added = 0 ∧
    (DataStore.importAccounts now2
        (DataStore.importAccounts now s batch).1 batch).1.accounts.length
      = (DataStore.importAccounts now s batch).1.accounts.length := by
  have hkeys : ∀ c ∈ batch,
      candKey c ∈ storeKeys (DataStore.importAccounts now s batch).1 :=
    importAccounts_key_mem now batch (s, { added := 0, updated := 0, skipped := 0 })
  have hfold := import_no_totp_fold now2 batch
    ((DataStore.importAccounts now s batch).1, { added := 0, updated := 0, skipped := 0 })
    (fun c hc => ⟨hall c hc, hkeys c hc⟩)
  exact ⟨hfold.1, hfold.2.2⟩

/-- C2 witness: two TOTP-free candidates imported twice into the empty
store. -/
theorem C2_import_twice_no_totp_idempotent_witness :
    (DataStore.importAccounts 0
        (DataStore.importAccounts 0 exStore0 [exCandEmpty, exCandNew]).1
        [exCandEmpty, exCandNew]).2.added = 0 ∧
    (DataStore.importAccounts 0
        (DataStore.importAccounts 0 exStore0 [exCandEmpty, exCandNew]).1
        [exCandEmpty, exCandNew]).1.accounts.length
      = (DataStore.importAccounts 0 exStore0 [exCandEmpty, exCandNew]).1.accounts.length :=
  C2_import_twice_no_totp_idempotent 0 0 exStore0 [exCandEmpty, exCandNew] (by decide)

-- ============================================================================
-- C3: merge of a matching candidate with equal TOTP
-- ============================================================================

/-- C3 (counterexample): the claim reads TOTP equality up to case/trim
normalization, but the code compares `existing.totp === newAcc.totp`
exactly.  `exStoreT` holds the secret in upper case and `exCandLower`
carries the identical secret in lower case: the two are equal after
normalization, both sides are present, and the candidate matches by
normalized email and exact password — yet the import inserts a new
account (`added = 1`, store grows), where the claim requires a
union-extras update with no insertion. -/
theorem C3_normalized_equality_counterexample :
    exStoreT.accounts.find? (DataStore.matchPred exCandLower) = some exAccountT ∧
    strTrim exAccountT.totp ≠ "" ∧
    strTrim exCandLower.totp ≠ "" ∧
    Utils.normalizeTOTP exAccountT.totp = Utils.normalizeTOTP exCandLower.totp ∧
    (DataStore.importAccounts 0 exStoreT [exCandLower]).2.added = 1 ∧
    (DataStore.importAccounts 0 exStoreT [exCandLower]).1.accounts.length = 2 := by
  refine ⟨by decide, by decide, by decide, by decide, by decide, by decide⟩

/-- C3 (amended): as the claim, with TOTP equality taken as exact string
equality (`===`) instead of case/trim-normalized equality.  Merging then
unions the candidate's extras into the matched account (membership is
the union of the two extras lists, dedup by exact equality), counts the
record as updated exactly when the extras changed and as skipped
otherwise, and never inserts: the account count is unchanged and
`added = 0`. -/
theorem C3_exact_equal_totp_merges_extras (now : Nat) (s : Store) (c : Candidate)
    (a : Account)
    (hfind : s.accounts.find? (DataStore.matchPred c) = some a)
    (hex : strTrim a.totp ≠ "") (hcand : strTrim c.totp ≠ "")
    (heq : a.totp = c.totp) :
    (DataStore.importAccounts now s [c]).2.added = 0 ∧
    (DataStore.importAccounts now s [c]).1.accounts.length = s.accounts.length ∧
    (DataStore.importAccounts now s [c]).1.accounts.find? (DataStore.matchPred c) =
      some { a with extras := (DataStore.mergeExtras a.extras c.extras).1 } ∧
    (∀ e, e ∈ (DataStore.mergeExtras a.extras c.extras).1 ↔
      e ∈ a.extras ∨ e ∈ c.extras) ∧
    (DataStore.importAccounts now s [c]).2 =
      ⟨0, if (DataStore.mergeExtras a.extras c.extras).2 then 1 else 0,
          if (DataStore.mergeExtras a.extras c.extras).2 then 0 else 1⟩ ∧
    ((DataStore.mergeExtras a.extras c.extras).2 = true ↔
      (DataStore.mergeExtras a.extras c.extras).1 ≠ a.extras) := by
  obtain ⟨l₁, l₂, hl, hfail, hpa, hupd⟩ := updateFirst_decomp
    (fun acc => { acc with extras := (DataStore.mergeExtras acc.extras c.extras).1 }) hfind
  have hex' : (strTrim a.totp != "") = true := by simpa using hex
  have hcand' : (strTrim c.totp != "") = true := by simpa using hcand
  have heq' : (a.totp == c.totp) = true := by simpa using heq
  have hres : DataStore.importAccounts now s [c] =
      ({ s with accounts := l₁ ++
          { a with extras := (DataStore.mergeExtras a.extras c.extras).1 } :: l₂ },
        ⟨0, if (DataStore.mergeExtras a.extras c.extras).2 then 1 else 0,
            if (DataStore.mergeExtras a.extras c.extras).2 then 0 else 1⟩) := by
    by_cases hch : (DataStore.mergeExtras a.extras c.extras).2 = true
    · simp [DataStore.importAccounts, DataStore.importOne, hfind, hex', hcand', heq',
        hupd, hch]
    · simp [DataStore.importAccounts, DataStore.importOne, hfind, hex', hcand', heq',
        hupd, hch]
  refine ⟨by rw [hres], ?_, ?_, mergeExtras_mem a.extras c.extras, by rw [hres],
    mergeExtras_flag_iff a.extras c.extras⟩
  · rw [hres, hl]
    simp
  · rw [hres]
    exact find?_prefix_fail l₂ hfail hpa

/-- C3 witness: `exStoreT` with a candidate carrying the identical (exact)
secret and one fresh extra. -/
theorem C3_exact_equal_totp_merges_extras_witness :
    (DataStore.importAccounts 0 exStoreT [exCandUpper]).2.added = 0 ∧
    (DataStore.importAccounts 0 exStoreT [exCandUpper]).1.accounts.length =
      exStoreT.accounts.length ∧
    (DataStore.importAccounts 0 exStoreT [exCandUpper]).1.accounts.find?
        (DataStore.matchPred exCandUpper) =
      some { exAccountT with
        extras := (DataStore.mergeExtras exAccountT.extras exCandUpper.extras).1 } ∧
    (∀ e, e ∈ (DataStore.mergeExtras exAccountT.extras exCandUpper.extras).1 ↔
      e ∈ exAccountT.extras ∨ e ∈ exCandUpper.extras) ∧
    (DataStore.importAccounts 0 exStoreT [exCandUpper]).2 =
      ⟨0, if (DataStore.mergeExtras exAccountT.extras exCandUpper.extras).2 then 1 else 0,
          if (DataStore.mergeExtras exAccountT.extras exCandUpper.extras).2 then 0 else 1⟩ ∧
    ((DataStore.mergeExtras exAccountT.extras exCandUpper.extras).2 = true ↔
      (DataStore.mergeExtras exAccountT.extras exCandUpper.extras).1 ≠ exAccountT.extras) :=
  C3_exact_equal_totp_merges_extras 0 exStoreT exCandUpper exAccountT
    (by decide) (by decide) (by decide) (by decide)

/-- C4: when a candidate matches an existing account (normalized email and
exact password), the existing account's TOTP is non-empty after trim and
the candidate's TOTP is empty after trim, then importing that candidate
counts it as skipped and leaves the whole store unchanged. -/
theorem C4_totp_loss_protection (now : Nat) (s : Store) (c : Candidate) (a : Account)
    (hfind : s.accounts.find? (DataStore.matchPred c) = some a)
    (hex : strTrim a.totp ≠ "") (hnew : strTrim c.totp = "") :
    DataStore.importAccounts now s [c] = (s, ⟨0, 0, 1⟩) := by
  simp [DataStore.importAccounts, DataStore.importOne, hfind, hex, hnew]

/-- C4 witness: the concrete one-account store with a stored secret and a
candidate without one. -/
theorem C4_totp_loss_protection_witness :
    DataStore.importAccounts 0 exStoreT [exCandEmpty] = (exStoreT, ⟨0, 0, 1⟩) :=
  C4_totp_loss_protection 0 exStoreT exCandEmpty exAccountT (by decide) (by decide) (by decide)

-- ============================================================================
-- C10: missing-id updates are rejected without effect
-- ============================================================================

/-- C10: for an id matching no stored account, `updateAccount`,
`deleteAccount` and `reorderAccounts` each return `false` and leave the
store unchanged (in the source, `autoSave` and the observer notifications
fire only after this early return, so no save is triggered either). -/
theorem C10_missing_id_is_noop (s : Store) (id : Nat) (u : Updates) (newOrder : Nat)
    (h : ∀ a ∈ s.accounts, a.id ≠ id) :
    DataStore.updateAccount s id u = (false, s) ∧
    DataStore.deleteAccount s id = (false, s) ∧
    DataStore.reorderAccounts s id newOrder = (false, s) := by
  have hp : ∀ a ∈ s.accounts, (a.id == id) = false := by
    intro a ha
    simpa using h a ha
  refine ⟨?_, ?_, ?_⟩
  · simp [DataStore.updateAccount, updateFirst_eq_none hp]
  · simp [DataStore.deleteAccount, removeFirst_eq_none hp]
  · have hfind : s.accounts.find? (fun acc => acc.id == id) = none :=
      List.find?_eq_none.mpr (by intro x hx; simp [hp x hx])
    simp [DataStore.reorderAccounts, hfind]

/-- C10 witness: id 7 is absent from the three-account store. -/
theorem C10_missing_id_is_noop_witness :
    DataStore.updateAccount exStore3 7 {} = (false, exStore3) ∧
    DataStore.deleteAccount exStore3 7 = (false, exStore3) ∧
    DataStore.reorderAccounts exStore3 7 0 = (false, exStore3) :=
  C10_missing_id_is_noop exStore3 7 {} 0 (by decide)
